import Mathlib

/-!
Verification development for the `faclib` array module (`src/faclib/array.c`).

The C module implements:
  - a growable block-chained one-dimensional array (`ARRAY`, `ArrayInit`,
    `ArrayGet`, `ArraySet`, `ArrayAppend`, `ArrayContiguous`, `ArrayTrim`);
  - a dense nested multi-dimensional array (`SMulti*`);
  - a hash-sparse multi-dimensional array (`NMulti*`) with a global memory
    ledger and whole-cache eviction;
  - a hybrid block-split multi-dimensional array (`MMulti*`);
  - an index array (`IdxAry`).

This file gives a shallow embedding of those data structures and operations
and proves properties about them.  Conventions used throughout:

  - C `unsigned long int` (`ub4`, 64-bit on this platform) is modelled as
    `Nat` with explicit wrap-around `% 2^64`.
  - C `int` is modelled as `Int`; C truncating division/modulus on `int`
    are `Int.tdiv` / `Int.tmod`; a cast from `int` to an unsigned type of
    width `w` is `x % 2^w` (Euclidean `%` on `Int`, hence non-negative).
  - C `double` byte counters (`totalsize`, `maxsize`, `_totalsize`,
    `_maxsize`) are modelled as `ℚ`; the code only ever stores integral
    byte counts in them, and the `0.1 * _totalsize` threshold is the exact
    rational `1/10` here where the C code uses the nearest binary double.
  - Heap pointers returned by `malloc` are modelled by allocation counters
    (distinct `Nat` identities), `NULL`-able pointers by `Option`.
  - A pointer returned by `ArrayGet`/`ArraySet` into element storage is
    modelled at two levels.  `arrayGet` returns the slot's known
    content: `some v` for storage holding the written value `v`, `none`
    for "no pointer (NULL)" or "allocated but never-written content".
    Where a claim must distinguish a C `NULL` return from a live pointer
    into unwritten storage (array.c:182-186 returns a non-NULL pointer
    for every index below `dim` whose block payload is materialized),
    the refinement `arrayGetP` is used instead: its `none` is exactly a
    C `NULL` return, and `some s` a non-NULL pointer whose storage
    content is `s` (`some v` if written, `none` for `malloc` garbage
    never filled by a hook or a `memcpy`).  The two observations agree:
    `arrayGet = Option.join ∘ arrayGetP`.
  - The per-element init hook (`InitData`) is modelled by an optional
    known initial value `ini : Option α` used to fill a freshly allocated
    block (`none` models either a missing hook or a hook whose effect we
    do not track); the free hook has no observable effect in the model.
  - `#pragma omp critical` sections and all lock operations are modelled
    by ordinary sequential execution; lock *identities* are tracked where
    a claim is about which lock is returned.
-/

namespace Fac

/-! ## 64-bit arithmetic helpers (C `ub4 = unsigned long int`) -/

/-- Wrap-around modulus of the 64-bit unsigned type. -/
def U64 : Nat := 2 ^ 64

/-- C conversion `int → ub4` (value modulo `2^64`; sign-extension followed by
reinterpretation is exactly the Euclidean remainder). -/
def toU64 (x : Int) : Nat := (x % (2 ^ 64 : Int)).toNat

/-- 64-bit addition. -/
def add64 (a b : Nat) : Nat := (a + b) % U64

/-- 64-bit subtraction (wrap-around). -/
def sub64 (a b : Nat) : Nat := (a + (U64 - b % U64)) % U64

/-- 64-bit left shift. -/
def shl64 (a n : Nat) : Nat := (a <<< n) % U64

/-! ## The integer-vector hash (`Hash2` and the `Mix` macro, array.c:613-659) -/

/-- The `Mix(a,b,c)` avalanche macro of array.c:615-626, one application.
Each line updates one accumulator using the current values of the others. -/
def mix3 (a0 b0 c0 : Nat) : Nat × Nat × Nat :=
  let a := sub64 a0 b0; let a := sub64 a c0; let a := a ^^^ (c0 >>> 13)
  let b := sub64 b0 c0; let b := sub64 b a; let b := b ^^^ (shl64 a 8)
  let c := sub64 c0 a; let c := sub64 c b; let c := c ^^^ (b >>> 13)
  let a := sub64 a b; let a := sub64 a c; let a := a ^^^ (c >>> 12)
  let b := sub64 b c; let b := sub64 b a; let b := b ^^^ (shl64 a 16)
  let c := sub64 c a; let c := sub64 c b; let c := c ^^^ (b >>> 5)
  let a := sub64 a b; let a := sub64 a c; let a := a ^^^ (c >>> 3)
  let b := sub64 b c; let b := sub64 b a; let b := b ^^^ (shl64 a 10)
  let c := sub64 c a; let c := sub64 c b; let c := c ^^^ (b >>> 15)
  (a, b, c)

/-- The main `while (len >= 3)` loop of `Hash2`: consume the key words three
at a time, returning the remainder (length 0, 1 or 2) and the accumulators. -/
def hash2Go : List Nat → Nat → Nat → Nat → (List Nat × Nat × Nat × Nat)
  | k0 :: k1 :: k2 :: rest, a, b, c =>
    let r := mix3 (add64 a k0) (add64 b k1) (add64 c k2)
    hash2Go rest r.1 r.2.1 r.2.2
  | rem, a, b, c => (rem, a, b, c)

/-- `Hash2(id, length, initval, n, m)` of array.c:628-659 (the unused
parameter `n` is dropped).  The first `length` words of `id` are copied into
the local `ub4` buffer, mixed three at a time, the original `length` is added
to `c`, the final one or two words are added with the C `switch`
fall-through, and the result is `c & m`. -/
def hash2 (id : List Int) (len : Nat) (initval : Nat) (m : Nat) : Nat :=
  let ks := (id.take len).map toU64
  let r0 := hash2Go ks 0x9e3779b9 0x9e3779b9 (initval % U64)
  let rem := r0.1
  let a := r0.2.1
  let b := r0.2.2.1
  let c := add64 r0.2.2.2 len
  let ab : Nat × Nat :=
    match rem with
    | [q0, q1] => (add64 a q0, add64 b q1)
    | [q0] => (add64 a q0, b)
    | _ => (a, b)
  (mix3 ab.1 ab.2 c).2.2 &&& m

/-- `HashSize(n) = ((ub4)1 << ((n/2)+16))` of array.c:613. -/
def hashSize (n : Nat) : Nat := 1 <<< (n / 2 + 16)

/-- `HashMask(n) = HashSize(n) - 1` of array.c:614. -/
def hashMask (n : Nat) : Nat := hashSize n - 1

/-! ## The block array (`ARRAY`, array.c:142-424)

An `ARRAY` owns a singly linked chain of blocks (`DATA`), each with a lazily
allocated payload of `block` elements.  A block is `none` while its `dptr`
is `NULL`.  A payload slot is `Option α`: `some v` when it is known to hold
`v`, `none` when the storage was never written (`malloc` garbage).  The
`esize`/`bsize` byte fields are kept only where byte accounting matters
(in the `NMulti` model); here elements are typed. -/

structure BArr (α : Type) where
  block : Nat
  dim : Nat
  chain : List (Option (List (Option α)))

variable {α : Type} {β : Type} {V : Type}

/-- `ArrayInit(a, esize, block)` of array.c:142-158: zero length, no data. -/
def arrayInit (block : Nat) : BArr α := ⟨block, 0, []⟩

/-- The chain walk of `ArrayGet`: subtract `block` from the index while
stepping to the next chain link; a missing link or `NULL` payload gives
`NULL`.  (The C code would fault past the end of the chain; reachable
states always cover `dim`.) -/
def blkGet (block : Nat) : List (Option (List (Option α))) → Nat → Option α
  | [], _ => none
  | b :: rest, i =>
    if i < block then
      match b with
      | none => none
      | some l => (l.get? i).join
    else blkGet block rest (i - block)

/-- `ArrayGet(a, i)` of array.c:173-187: `NULL` when `i` is outside
`[0, dim)`, otherwise the slot reached by the chain walk. -/
def arrayGet (a : BArr α) (i : Int) : Option α :=
  if i < 0 then none
  else if (a.dim : Int) ≤ i then none
  else blkGet a.block a.chain i.toNat

/-- The chain walk of `ArrayGet` with pointer presence tracked: `none`
when the C code returns `NULL` because the reached block's payload
pointer `dptr` is `NULL` (a link skipped over by a previous `ArraySet`,
array.c:225, hit at array.c:184-186), `some s` when array.c:182-183
returns the non-NULL pointer `dptr + i*esize` into storage whose content
knowledge is `s`.  (A chain shorter than the index dereferences `NULL`
in C, array.c:179/182; that case is unreachable below `dim`.) -/
def blkGetP (block : Nat) : List (Option (List (Option α))) → Nat → Option (Option α)
  | [], _ => none
  | b :: rest, i =>
    if i < block then
      match b with
      | none => none
      | some l => some ((l.get? i).join)
    else blkGetP block rest (i - block)

/-- `ArrayGet(a, i)` with pointer presence tracked: `none` exactly when
the C function returns `NULL` (index outside `[0, dim)`, array.c:176, or
a block with a `NULL` payload pointer, array.c:184-186); `some s` when it
returns a live pointer to storage with content knowledge `s` — which is
`none` for storage that was `malloc`ed (array.c:216, 233) and never
written by an init hook or a `memcpy`. -/
def arrayGetP (a : BArr α) (i : Int) : Option (Option α) :=
  if i < 0 then none
  else if (a.dim : Int) ≤ i then none
  else blkGetP a.block a.chain i.toNat

/-- The payload of a block, materializing a `NULL` payload with the init
hook (`none` hook leaves unknown slots): `malloc` plus `InitData` of
array.c:232-235. -/
def padded (block : Nat) (ini : Option α) : Option (List (Option α)) → List (Option α)
  | some l => l
  | none => List.replicate block ini

/-- The chain walk of `ArraySet` expressed on the quotient/remainder
decomposition of the index (`q` links are skipped — missing intermediate
links are allocated with `NULL` payloads —, then slot `r` of the target
block, materialized if needed, is read and updated through `f`).  This
also models C callers that retain the returned interior pointer and
mutate through it (`SMultiSet`); `f` returns the new slot content and a
result. -/
def blkModify (block : Nat) (ini : Option α) (f : Option α → Option α × β) :
    List (Option (List (Option α))) → Nat → Nat → List (Option (List (Option α))) × β
  | chain, 0, r =>
    let pr : List (Option α) × List (Option (List (Option α))) :=
      match chain with
      | [] => (List.replicate block ini, [])
      | b :: rest => (padded block ini b, rest)
    let x := f ((pr.1.get? r).join)
    (some (pr.1.set r x.1) :: pr.2, x.2)
  | chain, q + 1, r =>
    match chain with
    | [] =>
      let x := blkModify block ini f [] q r
      (none :: x.1, x.2)
    | b :: rest =>
      let x := blkModify block ini f rest q r
      (b :: x.1, x.2)

/-- The `ArraySet` walk on a whole `BArr`: when `dim = 0` the first block is
allocated and initialized up front (array.c:214-219), the new `dim` is
`i+1` if it grew (array.c:221, no growth for a negative `i`), and the
target slot is reached at chain link `i / block`, offset `i % block`. -/
def arrayModify (a : BArr α) (i : Int) (ini : Option α) (f : Option α → Option α × β) :
    BArr α × β :=
  let j := i.toNat
  let chain0 := if a.dim = 0 then [some (List.replicate a.block ini)] else a.chain
  let x := blkModify a.block ini f chain0 (j / a.block) (j % a.block)
  (⟨a.block, if (a.dim : Int) ≤ i then (i + 1).toNat else a.dim, x.1⟩, x.2)

/-- `ArraySet(a, i, d, InitData)` of array.c:208-245: copy `d` into the slot
if given, and return (the content of) the slot. -/
def arraySet (a : BArr α) (i : Int) (d : Option α) (ini : Option α) : BArr α × Option α :=
  arrayModify a i ini fun s =>
    match d with
    | some v => (some v, some v)
    | none => (s, s)

/-- `ArrayAppend(a, d, InitData)` of array.c:294-299: `ArraySet` at `dim`. -/
def arrayAppend (a : BArr α) (d : Option α) (ini : Option α) : BArr α × Option α :=
  arraySet a (a.dim : Int) d ini

/-- The copy loop of `ArrayContiguous` (array.c:267-277): whole payloads of
`block` elements, and `i` remaining elements from the final block. -/
def contigGo (block : Nat) : List (Option (List (Option α))) → Nat → List (Option α)
  | [], _ => []
  | b :: rest, i =>
    let payload := padded block none b
    if i ≤ block then payload.take i
    else payload ++ contigGo block rest (i - block)

/-- `ArrayContiguous(a)` of array.c:256-280: `NULL` for an empty array,
otherwise the `dim` elements in chain order. -/
def arrayContiguous (a : BArr α) : Option (List (Option α)) :=
  if a.dim = 0 then none else some (contigGo a.block a.chain a.dim)

/-- `ArrayFree(a, FreeElem)` of array.c:356-368: release everything,
reset to an empty array. -/
def arrayFree (a : BArr α) : BArr α := ⟨a.block, 0, []⟩

/-- `ArrayTrim(a, n, FreeElem)` of array.c:384-424: no-op when `dim ≤ n`,
full teardown when `n = 0`; otherwise the chain is cut after the block
containing index `n-1` (when `n` falls on a block boundary the walk ends
at link `n / block`, which is freed together with its successors;
otherwise the successors of link `n / block` are freed and that block is
kept, its slots past `n % block` surviving in memory unread), and `dim`
becomes `n`. -/
def arrayTrim (a : BArr α) (n : Nat) : BArr α :=
  if a.dim ≤ n then a
  else if n = 0 then arrayFree a
  else if n % a.block = 0 then ⟨a.block, n, a.chain.take (n / a.block)⟩
  else ⟨a.block, n, a.chain.take (n / a.block + 1)⟩

/-- Well-formedness of a chain: every materialized payload has exactly
`block` slots.  Every state reachable through the operations above
satisfies this. -/
def WFchain (block : Nat) (chain : List (Option (List (Option α)))) : Prop :=
  ∀ l : List (Option α), some l ∈ chain → l.length = block

/-- The content of slot `r` of chain link `q` (the value `blkGet` reaches
at index `q*block + r`). -/
def slotOf (chain : List (Option (List (Option α)))) (q r : Nat) : Option α :=
  match chain.get? q with
  | some (some l) => (l.get? r).join
  | _ => none

/-- Append a whole list of values (`ArrayAppend` with data, in order). -/
def appendAll (a : BArr α) (ini : Option α) (vs : List α) : BArr α :=
  vs.foldl (fun a v => (arrayAppend a (some v) ini).1) a

/-- The payload that chain link `q` holds after `vals` have been appended
to an empty array: the values at indices `q*block + r`, padded past the
end with the init hook's fill. -/
def chunkAt (block : Nat) (ini : Option α) (vals : List α) (q : Nat) : List (Option α) :=
  (List.range block).map fun r =>
    match vals.get? (q * block + r) with
    | some v => some v
    | none => ini

/-- Shape of the array obtained by appending `vals` to an empty array of
capacity `block`: complete characterization of `dim` and the chain. -/
def ChunkInv (block : Nat) (ini : Option α) (vals : List α) (a : BArr α) : Prop :=
  a.block = block ∧ a.dim = vals.length ∧
  a.chain.length = (vals.length + block - 1) / block ∧
  ∀ q, q < a.chain.length → a.chain.get? q = some (some (chunkAt block ini vals q))

/-! ## Index array (`IDXARY`, array.c:1181-1214) -/

/-- The `IDXARY` structure: domain values `d` (length `n`), extrema `m0`/`m1`,
and the inverse table `i` of length `m = m1 - m0 + 1`. -/
structure IdxAry where
  n : Nat
  d : List Int
  m0 : Int
  m1 : Int
  m : Nat
  i : List Int

/-- `InitIdxAry(ia, n, d)` of array.c:1181-1208.  Computes the minimum `m0`
and maximum `m1` of the domain, fills the inverse table with `-1`, then
stores each position `k` at slot `d[k] - m0` (later duplicates win). -/
def initIdxAry (d : List Int) : IdxAry :=
  match d with
  | [] => ⟨0, [], 0, 0, 0, []⟩
  | d0 :: _ =>
    let m0 := d.foldl (fun acc x => if acc > x then x else acc) d0
    let m1 := d.foldl (fun acc x => if acc < x then x else acc) d0
    let m : Nat := (1 + m1 - m0).toNat
    let tbl0 : List Int := List.replicate m (-1)
    let tbl := (List.range d.length).foldl
      (fun tbl k => tbl.set ((d.getD k 0) - m0).toNat k) tbl0
    ⟨d.length, d, m0, m1, m, tbl⟩

/-- `IdxGet(ia, d)` of array.c:1210-1214: `-1` below the minimum, `-2` above
the maximum, otherwise the inverse-table entry. -/
def idxGet (ia : IdxAry) (x : Int) : Int :=
  if x < ia.m0 then -1
  else if x > ia.m1 then -2
  else ia.i.getD (x - ia.m0).toNat 0

/-! ## Hash-sparse multi-array (`NMulti`, array.c:674-985)

A bucket is modelled as the list of its live entries (`MDATA` slots
`0 ≤ j < a->dim`, in chain order); the chain's block structure (8 `MDATA`
per block) enters only through the byte accounting.  Allocation identities
(`malloc` results) for the per-entry value buffer and per-entry lock are
modelled by a counter, corresponding to the `USE_MPI == 2` build in which
`InitLock` succeeds.  The global ledger (`_maxsize`, `_totalsize`,
`_overheadsize` of array.c:37-39) is threaded explicitly. -/

/-- Platform byte sizes of the C structs involved in the accounting
(`sizeof(DATA)`, `sizeof(MDATA)`, `sizeof(LOCK)`, `sizeof(ARRAY)`). -/
structure CSizes where
  szDATA : Nat
  szMDATA : Nat
  szLOCK : Nat
  szARRAY : Nat

/-- One `MDATA` entry of a bucket: owned key copy, value buffer, lock. -/
structure NEntry (V : Type) where
  key : List Int
  dataId : Nat
  val : Option V
  lockId : Nat
  deriving Repr

/-- The global memory ledger `_maxsize` / `_totalsize` / `_overheadsize`. -/
structure Glob where
  maxsize : ℚ
  totalsize : ℚ
  overheadsize : ℚ

/-- The `MULTI` structure as used by the `NMulti` family. -/
structure NM (V : Type) where
  ndim : Nat
  esize : Nat
  isize : Nat
  hsize : Nat
  hmask : Nat
  maxsize : ℚ
  totalsize : ℚ
  overheadsize : ℚ
  numelem : Nat
  cleanMode : Int
  buckets : Nat → List (NEntry V)
  nextId : Nat

/-- `NMultiInit(ma, esize, ndim, block, id)` of array.c:674-710.  Sets
`isize = sizeof(int)*ndim`, `hsize = HashSize(ndim)`, `hmask = hsize-1`,
initializes every bucket empty and accounts the block-size array and the
bucket table as overhead (the C code `+=`s into `overheadsize` and `++`s
`numelem` without ever initializing them in this function; the model
starts both from 0, i.e. a zero-initialized allocation). -/
def NMultiInit (V : Type) (cs : CSizes) (esize ndim : Nat) (g : Glob) : NM V × Glob :=
  let s1 : Nat := 2 * ndim
  let s2 : Nat := cs.szARRAY * hashSize ndim
  (⟨ndim, esize, 4 * ndim, hashSize ndim, hashSize ndim - 1,
    -1, 0, (s1 + s2 : Nat), 0, -1, fun _ => [], 0⟩,
   { g with overheadsize := g.overheadsize + (s1 + s2 : Nat) })

/-- The bucket scan of `NMultiGet`/`NMultiSet`: first entry whose key
bytes (`memcmp` over `isize = sizeof(int)*ndim` bytes) equal `k`.  Keys
are compared as integer vectors; callers pass vectors of length `ndim`. -/
def findEntry (b : List (NEntry V)) (k : List Int) : Option (NEntry V) :=
  b.find? fun e => e.key == k

/-- `NMultiGet(ma, k, lock)` of array.c:712-736: hash, scan the bucket,
return the matching entry (value buffer, and its lock through the
out-parameter) or `NULL`. -/
def NMultiGet (ma : NM V) (k : List Int) : Option (NEntry V) :=
  findEntry (ma.buckets (hash2 k ma.ndim 0 ma.hmask)) k

/-- The out-parameter write of `NMultiGet`: `*lock = pt->lock` happens only
on a hit; on a miss the caller's variable keeps its old value. -/
def NMultiGetLockOut (ma : NM V) (k : List Int) (lv : Option Nat) : Option Nat :=
  match NMultiGet ma k with
  | some e => some e.lockId
  | none => lv

/-- `NMultiFreeData(ma, FreeElem)` of array.c:927-968.  Re-checks the
trigger recorded in `clean_mode` and, if it still holds, frees every
bucket, subtracts the cache's live bytes from the global ledger and zeroes
the cache's counters; `clean_mode` is reset either way. -/
def NMultiFreeData (ma : NM V) (g : Glob) : NM V × Glob :=
  let clean : Bool :=
    if ma.cleanMode = 0 then
      if ma.totalsize < ma.maxsize then false else true
    else if ma.cleanMode = 1 then
      if g.totalsize < g.maxsize ∧ ma.totalsize ≤ g.totalsize / 10 then false else true
    else
      if ma.totalsize ≤ 0 then false else true
  if clean then
    ({ ma with buckets := fun _ => [], totalsize := 0, numelem := 0, cleanMode := -1 },
     { g with totalsize := g.totalsize - ma.totalsize })
  else
    ({ ma with cleanMode := -1 }, g)

/-- Update the first list element satisfying `p` with `f`. -/
def updFirst (p : γ → Bool) (f : γ → γ) : List γ → List γ
  | [] => []
  | x :: xs => if p x then f x :: xs else x :: updFirst p f xs

/-- The body of `NMultiSet` after the eviction check (array.c:757-882):
hash to a bucket; allocate the bucket's first block if it is empty
(accounting `sizeof(DATA) + bsize` bytes, `bsize = 8*sizeof(MDATA)`);
scan for an existing entry and overwrite it in place if found; otherwise
extend the bucket by one entry (allocating a fresh chain block, with the
same accounting, exactly when the occupied length is a multiple of the
block capacity 8), allocate its lock and value buffer (accounting
`sizeof(LOCK) + esize + isize` bytes in the cache and global ledgers),
bump `numelem`, and return the new entry. -/
def nmSetBody (cs : CSizes) (ma : NM V) (g : Glob) (k : List Int) (d : Option V)
    (ini : Option V) : NM V × Glob × NEntry V :=
  let h := hash2 k ma.ndim 0 ma.hmask
  let b := ma.buckets h
  match findEntry b k with
  | some e =>
    let newVal := match d with | some v => some v | none => e.val
    ({ ma with buckets := fun h2 =>
        if h2 = h then updFirst (fun x => x.key == k) (fun x => { x with val := newVal }) b
        else ma.buckets h2 },
     g,
     { e with val := newVal })
  | none =>
    let s1 : ℚ := if b.length % 8 = 0 then (cs.szDATA + 8 * cs.szMDATA : Nat) else 0
    let s2 : ℚ := (cs.szLOCK + ma.esize + ma.isize : Nat)
    let e : NEntry V := ⟨k, ma.nextId + 1, (match d with | some v => some v | none => ini),
      ma.nextId⟩
    ({ ma with
        buckets := fun h2 => if h2 = h then b ++ [e] else ma.buckets h2,
        totalsize := ma.totalsize + s1 + s2,
        numelem := ma.numelem + 1,
        nextId := ma.nextId + 2 },
     { g with totalsize := g.totalsize + s1 + s2 },
     e)

/-- `NMultiSet(ma, k, d, lock, InitData, FreeElem)` of array.c:738-882.
The critical section at the top checks the two eviction triggers — the
local one (`maxsize > 0` and `totalsize ≥ maxsize`, `clean_mode = 0`),
else the global one (`_maxsize > 0`, `_totalsize ≥ _maxsize` and
`totalsize > 0.1 * _totalsize`, `clean_mode = 1`) — and flushes the cache
through `NMultiFreeData` when one fires; then the body runs. -/
def NMultiSet (cs : CSizes) (ma : NM V) (g : Glob) (k : List Int) (d : Option V)
    (ini : Option V) : NM V × Glob × NEntry V :=
  let mg :=
    if 0 < ma.maxsize ∧ ma.maxsize ≤ ma.totalsize then
      NMultiFreeData { ma with cleanMode := 0 } g
    else if 0 < g.maxsize ∧ g.maxsize ≤ g.totalsize ∧ g.totalsize / 10 < ma.totalsize then
      NMultiFreeData { ma with cleanMode := 1 } g
    else (ma, g)
  nmSetBody cs mg.1 mg.2 k d ini

/-- The out-parameter write of `NMultiSet`: every return path executes
`if (lock) *lock = pt->lock` on the entry it returns. -/
def NMultiSetLockOut (cs : CSizes) (ma : NM V) (g : Glob) (k : List Int) (d : Option V)
    (ini : Option V) (lv : Option Nat) : Option Nat :=
  some (NMultiSet cs ma g k d ini).2.2.lockId

/-- Run a sequence of `NMultiSet` calls (each with a concrete value). -/
def nmApply (cs : CSizes) (ini : Option V) (sg : NM V × Glob) (ops : List (List Int × V)) :
    NM V × Glob :=
  ops.foldl (fun sg op =>
    let r := NMultiSet cs sg.1 sg.2 op.1 (some op.2) ini
    (r.1, r.2.1)) sg

/-- The most recently set value for key `q` in a sequence of Set calls. -/
def lastVal (ops : List (List Int × V)) (q : List Int) : Option V :=
  ops.foldl (fun acc op => if op.1 = q then some op.2 else acc) none

/-! ## Hybrid block-split multi-array (`MMulti`, array.c:987-1179)

Per-bucket state: `ia` is the list of coarse (`unsigned short`) super-cell
keys seen so far (one `isize = 2*ndim`-byte record per super-cell, in
insertion order; the 16-records-per-block chain structure and the `0xFF`
fill of fresh key blocks affect only storage, not the scan over the first
`a->dim` records), and `da` the per-bucket dense value array, one
`iblock[ndim-1]`-sized cell per super-cell.  `array` is the dense fallback
for keys inside the first cell. -/

/-- C cast `int → unsigned short` (value modulo `2^16`). -/
def toUS (x : Int) : Nat := (x % 65536).toNat

/-- The `MULTI` structure as used by the `MMulti` family.  The scratch
fields `iidx`/`sidx`/`ridx`/`aidx`/`isf` that `MMultiIndex` fills are
returned functionally by `mIndex` instead of being stored. -/
structure MM (V : Type) where
  ndim : Nat
  isize : Nat
  esize : Nat
  block : List Nat
  iblock : List Nat
  hsize : Nat
  hmask : Nat
  maxsize : ℚ
  totalsize : ℚ
  arr : BArr V
  ia : Nat → List (List Nat)
  da : Nat → BArr V

/-- The cumulative block products `iblock[i] = block[i] * iblock[i-1]`
(array.c:1003-1010), generalized over the running accumulator. -/
def iblockGo (acc : Nat) : List Nat → List Nat
  | [] => []
  | b :: bs => (b * acc) :: iblockGo (b * acc) bs

/-- `MMultiInit(ma, esize, ndim, block, id)` of array.c:987-1023.  Note:
unlike `NMultiInit` (array.c:689), this function never writes `ma->hmask`;
the model therefore takes the pre-existing memory content `hmask0` of that
field as a parameter (0 for a zero-initialized allocation). -/
def MMultiInit (V : Type) (esize ndim : Nat) (blockArg : List Int) (hmask0 : Nat) : MM V :=
  let block := (blockArg.take ndim).map toUS
  let iblock := iblockGo 1 block
  let cell := iblock.getLastD 0
  { ndim, isize := 2 * ndim, esize, block, iblock,
    hsize := hashSize ndim,
    hmask := hmask0,
    maxsize := -1, totalsize := 0,
    arr := arrayInit cell,
    ia := fun _ => [],
    da := fun _ => arrayInit cell }

/-- The per-coordinate loop of `MMultiIndex` (array.c:1028-1039) over the
zipped key/block-size vector: returns `(isf, iidx, sidx, ridx)`.  A
coordinate with `k[i] >= block[i]` contributes its truncating quotient and
remainder and clears `isf`; otherwise quotient 0 and the coordinate itself
as remainder. -/
def mIndexGo : List (Int × Nat) → Bool × List Int × List Nat × List Nat
  | [] => (true, [], [], [])
  | (ki, bi) :: rest =>
    let r := mIndexGo rest
    if (bi : Int) ≤ ki then
      (false, ki.tdiv bi :: r.2.1, toUS (ki.tdiv bi) :: r.2.2.1, toUS (ki.tmod bi) :: r.2.2.2)
    else
      (r.1, 0 :: r.2.1, 0 :: r.2.2.1, toUS ki :: r.2.2.2)

/-- `MMultiIndex(ma, k)` of array.c:1025-1044 without the `aidx` sum. -/
def mIndex (block : List Nat) (k : List Int) : Bool × List Int × List Nat × List Nat :=
  mIndexGo (k.zip block)

/-- The residual offset `aidx = ridx[0] + sum_{i>=1} ridx[i]*iblock[i-1]`
of array.c:1040-1043. -/
def aidxOf (ridx : List Nat) (iblock : List Nat) : Nat :=
  match ridx with
  | [] => 0
  | r :: rs => r + ((rs.zip iblock).foldl (fun acc p => acc + p.1 * p.2) 0)

/-- Little-endian mixed-radix value: the specification-side form of the
residual offset, used to state its properties. -/
def radixVal : List Nat → List Nat → Nat
  | b :: bs, r :: rs => r + b * radixVal bs rs
  | _, _ => 0

/-- The bucket selected by `MMultiGet`/`MMultiSet` for a key outside the
fast range: `Hash2(ma->iidx, ma->ndim, 0, ma->ndim, ma->hmask)`. -/
def mmBucket (ma : MM V) (k : List Int) : Nat :=
  hash2 (mIndex ma.block k).2.1 ma.ndim 0 ma.hmask

/-- `MMultiGet(ma, k, lock)` of array.c:1046-1075: fast range reads the
dense fallback at `aidx`; otherwise scan the bucket's super-cell keys and
read slot `aidx + j*iblock[ndim-1]` of the bucket's value array.  The
`lock` out-parameter is never written. -/
def MMultiGet (ma : MM V) (k : List Int) : Option V :=
  let mi := mIndex ma.block k
  let aidx := aidxOf mi.2.2.2 ma.iblock
  if mi.1 then arrayGet ma.arr (aidx : Int)
  else
    let h := hash2 mi.2.1 ma.ndim 0 ma.hmask
    match (ma.ia h).findIdx? (fun s => s == mi.2.2.1) with
    | some j => arrayGet (ma.da h) ((aidx + j * ma.iblock.getLastD 0 : Nat) : Int)
    | none => none

/-- `MMultiGet(ma, k, lock)` of array.c:1046-1075 with pointer presence
tracked (`arrayGetP` in place of `arrayGet`): `none` exactly when the C
function returns `NULL` — the dense/bucket `ArrayGet` returns `NULL`
(array.c:1054, 1068), or the super-cell key scan misses (array.c:1074) —
and `some s` when it returns a live element pointer with content
knowledge `s`. -/
def MMultiGetP (ma : MM V) (k : List Int) : Option (Option V) :=
  let mi := mIndex ma.block k
  let aidx := aidxOf mi.2.2.2 ma.iblock
  if mi.1 then arrayGetP ma.arr (aidx : Int)
  else
    let h := hash2 mi.2.1 ma.ndim 0 ma.hmask
    match (ma.ia h).findIdx? (fun s => s == mi.2.2.1) with
    | some j => arrayGetP (ma.da h) ((aidx + j * ma.iblock.getLastD 0 : Nat) : Int)
    | none => none

/-- `MMultiSet(ma, k, d, lock, InitData, FreeElem)` of array.c:1077-1136:
fast range writes the dense fallback; otherwise find or append the
super-cell record in `ia` and write slot `aidx + j*iblock[ndim-1]` of
`da`.  The function performs no eviction check and never touches the
global ledger, which is threaded through unchanged. -/
def MMultiSet (g : Glob) (ma : MM V) (k : List Int) (d : Option V) (ini : Option V) :
    Glob × MM V × Option V :=
  let mi := mIndex ma.block k
  let aidx := aidxOf mi.2.2.2 ma.iblock
  if mi.1 then
    let ar := arraySet ma.arr (aidx : Int) d ini
    (g, { ma with arr := ar.1 }, ar.2)
  else
    let h := hash2 mi.2.1 ma.ndim 0 ma.hmask
    let cell := ma.iblock.getLastD 0
    match (ma.ia h).findIdx? (fun s => s == mi.2.2.1) with
    | some j =>
      let ar := arraySet (ma.da h) ((aidx + j * cell : Nat) : Int) d ini
      (g, { ma with da := fun h2 => if h2 = h then ar.1 else ma.da h2 }, ar.2)
    | none =>
      let j := (ma.ia h).length
      let ar := arraySet (ma.da h) ((aidx + j * cell : Nat) : Int) d ini
      (g, { ma with
              ia := fun h2 => if h2 = h then ma.ia h2 ++ [mi.2.2.1] else ma.ia h2,
              da := fun h2 => if h2 = h then ar.1 else ma.da h2 },
       ar.2)

/-- Run a sequence of `MMultiSet` calls (each with a concrete value). -/
def mmApply (ini : Option V) (ma : MM V) (ops : List (List Int × V)) : MM V :=
  ops.foldl (fun ma op => (MMultiSet ⟨-1, 0, 0⟩ ma op.1 (some op.2) ini).2.1) ma

/-- Well-formed key for an `MMulti` with block sizes `bs`: the right arity,
non-negative coordinates, and coarse coordinates that fit in an
`unsigned short` (no truncation in `sidx`). -/
def wfMKey (bs : List Nat) (ndim : Nat) (k : List Int) : Prop :=
  k.length = ndim ∧ ∀ p ∈ k.zip bs, 0 ≤ p.1 ∧ p.1.tdiv (p.2 : Int) < 65536

/-- Structural invariant of reachable `MMulti` states (established by
`MMultiInit`, preserved by `MMultiSet`). -/
def MInv (ma : MM V) : Prop :=
  1 ≤ ma.ndim ∧
  ma.block.length = ma.ndim ∧
  (∀ b ∈ ma.block, 1 ≤ b ∧ b < 65536) ∧
  ma.iblock = iblockGo 1 ma.block ∧
  ma.arr.block = ma.iblock.getLastD 0 ∧
  WFchain ma.arr.block ma.arr.chain ∧
  (∀ h, (ma.da h).block = ma.iblock.getLastD 0 ∧ WFchain (ma.da h).block (ma.da h).chain)

/-- Sum of pairwise products — the recursive form of the `aidx` summation
loop, used to reason about the `foldl` in `aidxOf`. -/
def zipSum : List (Nat × Nat) → Nat
  | [] => 0
  | p :: r => p.1 * p.2 + zipSum r

/-- Every slot at or beyond `dim` reads `NULL`.  This holds for every
block array populated exclusively through `ArraySet` with no `InitData`
hook (the fill of fresh blocks is all-`NULL` and every write lands below
the updated `dim`). -/
def NoneBeyond (a : BArr α) : Prop :=
  ∀ j : Nat, a.dim ≤ j → blkGet a.block a.chain j = none

/-- The full invariant of `MMulti` states reachable from `MMultiInit`
by `MMultiSet` calls without an `InitData` hook: the structural part
`MInv`, all-`NULL` beyond `dim` for the fallback array and every bucket's
value array, the fallback array confined to one cell, and each bucket's
value array confined to one cell per super-cell key on record. -/
def MFull (ma : MM V) : Prop :=
  MInv ma ∧
  NoneBeyond ma.arr ∧
  ma.arr.dim ≤ ma.iblock.getLastD 0 ∧
  (∀ h, NoneBeyond (ma.da h)) ∧
  (∀ h, (ma.da h).dim ≤ (ma.ia h).length * ma.iblock.getLastD 0)

/-! ## Dense nested multi-array (`SMulti`, array.c:443-590)

The nesting of untyped `ARRAY`-of-`ARRAY` levels is modelled by a tagged
element type: `uninit` is a slot freshly created by `InitArrayData`
(`dim = 0, esize = 0`, array.c:117-126), `arr` a materialized nested
array, `leaf` a last-dimension element. -/

inductive SVal (V : Type) where
  | uninit : SVal V
  | arr : BArr (SVal V) → SVal V
  | leaf : V → SVal V

/-- The `MULTI` structure as used by the `SMulti` family. -/
structure SMState (V : Type) where
  ndim : Nat
  esize : Nat
  block : List Nat
  maxsize : ℚ
  totalsize : ℚ
  cleanMode : Int
  root : Option (BArr (SVal V))

/-- `SMultiInit(ma, esize, ndim, block, id)` of array.c:443-455. -/
def SMultiInit (V : Type) (esize ndim : Nat) (blockArg : List Int) : SMState V :=
  { ndim, esize, block := (blockArg.take ndim).map toUS,
    maxsize := -1, totalsize := 0, cleanMode := -1, root := none }

/-- The `ndim`-level walk of `SMultiGet` (array.c:476-479): one `ArrayGet`
per coordinate, `NULL` propagating out; the final level yields the
element. -/
def sGetGo : BArr (SVal V) → List Int → Option (SVal V)
  | a, [i] => arrayGet a i
  | a, i :: rest =>
    match arrayGet a i with
    | some (SVal.arr b) => sGetGo b rest
    | _ => none
  | _, [] => none

/-- `SMultiGet(ma, k, lock)` of array.c:470-482.  The `lock` out-parameter
is not mentioned anywhere in the body; the caller's variable is returned
untouched. -/
def SMultiGet (ma : SMState V) (k : List Int) (lv : Option Nat) :
    Option (SVal V) × Option Nat :=
  (match ma.root with
   | none => none
   | some a => sGetGo a k, lv)

/-- The walk of `SMultiSet` (array.c:514-529): on every level but the last,
`ArraySet(a, k[i], NULL, InitArrayData)` materializes the slot, an
`uninit` slot is turned into a freshly `ArrayInit`ed nested array sized by
the next dimension's block, and the walk descends; the last level performs
the element write.  Mutation through the returned interior pointer is
modelled with `arrayModify`. -/
def sSetGo (d : Option V) (iniV : Option (SVal V)) :
    List Int → List Nat → BArr (SVal V) → BArr (SVal V) × Option (SVal V)
  | [i], _, a => arraySet a i (d.map SVal.leaf) iniV
  | i :: rest, blocks, a =>
    arrayModify a i (some SVal.uninit) fun slot =>
      let b0 : BArr (SVal V) :=
        match slot with
        | some (SVal.arr b) => b
        | _ => arrayInit (blocks.headD 1)
      let x := sSetGo d iniV rest blocks.tail b0
      (some (SVal.arr x.1), x.2)
  | [], _, a => (a, none)

/-- `SMultiSet(ma, k, d, lock, InitData, FreeElem)` of array.c:499-530:
materialize the root (block size `block[0]`) if needed, then walk.  The
`lock` out-parameter is not mentioned anywhere in the body. -/
def SMultiSet (ma : SMState V) (k : List Int) (d : Option V) (iniV : Option (SVal V))
    (lv : Option Nat) : (SMState V × Option (SVal V)) × Option Nat :=
  (let root0 : BArr (SVal V) :=
     match ma.root with
     | some a => a
     | none => arrayInit (ma.block.headD 1)
   let x := sSetGo d iniV k ma.block.tail root0
   ({ ma with root := some x.1 }, x.2), lv)

/-- C9: For an `IdxAry` built from the domain `[3,7,5]`: `IdxGet 7 = 1`,
`IdxGet 3 = 0`, `IdxGet 4 = -1` (in range but not in the domain),
`IdxGet 2 = -1` (below the minimum), `IdxGet 8 = -2` (above the maximum). -/
theorem idxAry_domain_3_7_5 :
    idxGet (initIdxAry [3, 7, 5]) 7 = 1 ∧
    idxGet (initIdxAry [3, 7, 5]) 3 = 0 ∧
    idxGet (initIdxAry [3, 7, 5]) 4 = -1 ∧
    idxGet (initIdxAry [3, 7, 5]) 2 = -1 ∧
    idxGet (initIdxAry [3, 7, 5]) 8 = -2 := by
  decide

/-! ## Block-array lemmas -/

theorem blkGet_nil {block : Nat} (i : Nat) : blkGet block ([] : List (Option (List (Option α)))) i = none := rfl

theorem blkGet_cons {block : Nat} (b : Option (List (Option α))) (rest) (i : Nat) :
    blkGet block (b :: rest) i =
      if i < block then
        match b with
        | none => none
        | some l => (l.get? i).join
      else blkGet block rest (i - block) := rfl

theorem blkModify_zero_eq {block : Nat} (ini : Option α) (f : Option α → Option α × β)
    (chain : List (Option (List (Option α)))) (r : Nat) :
    blkModify block ini f chain 0 r =
      (some ((padded block ini chain.head?.join).set r
          (f (((padded block ini chain.head?.join).get? r).join)).1) :: chain.tail,
        (f (((padded block ini chain.head?.join).get? r).join)).2) := by
  cases chain with
  | nil => rfl
  | cons b rest => cases b <;> rfl

theorem blkModify_succ_nil {block : Nat} (ini : Option α) (f : Option α → Option α × β)
    (q r : Nat) :
    blkModify block ini f [] (q + 1) r =
      (none :: (blkModify block ini f [] q r).1, (blkModify block ini f [] q r).2) := rfl

theorem blkModify_succ_cons {block : Nat} (ini : Option α) (f : Option α → Option α × β)
    (b : Option (List (Option α))) (rest) (q r : Nat) :
    blkModify block ini f (b :: rest) (q + 1) r =
      (b :: (blkModify block ini f rest q r).1, (blkModify block ini f rest q r).2) := rfl

theorem blkGet_qr {block : Nat} (chain : List (Option (List (Option α)))) (q r : Nat)
    (hr : r < block) :
    blkGet block chain (q * block + r) = slotOf chain q r := by
  induction q generalizing chain with
  | zero =>
    cases chain with
    | nil => simp [blkGet_nil, slotOf]
    | cons b rest =>
      rw [Nat.zero_mul, Nat.zero_add, blkGet_cons, if_pos hr, slotOf]
      cases b <;> rfl
  | succ q ih =>
    cases chain with
    | nil => simp [blkGet_nil, slotOf]
    | cons b rest =>
      have h1 : ¬ ((q + 1) * block + r < block) := by
        have : block ≤ (q + 1) * block := Nat.le_mul_of_pos_left _ (Nat.succ_pos q)
        omega
      have h2 : (q + 1) * block + r - block = q * block + r := by
        rw [Nat.succ_mul]; omega
      rw [blkGet_cons, if_neg h1, h2, ih rest]
      rfl

theorem blkGet_eq_slotOf {block : Nat} (hb : 0 < block)
    (chain : List (Option (List (Option α)))) (j : Nat) :
    blkGet block chain j = slotOf chain (j / block) (j % block) := by
  have h := blkGet_qr chain (j / block) (j % block) (Nat.mod_lt _ hb)
  rwa [Nat.mul_comm, Nat.div_add_mod] at h

theorem blkModify_length {block : Nat} (ini : Option α) (f : Option α → Option α × β)
    (chain : List (Option (List (Option α)))) (q r : Nat) :
    (blkModify block ini f chain q r).1.length = max chain.length (q + 1) := by
  induction q generalizing chain with
  | zero =>
    rw [blkModify_zero_eq]
    cases chain with
    | nil => simp
    | cons b rest => simp [Nat.max_def]
  | succ q ih =>
    cases chain with
    | nil =>
      rw [blkModify_succ_nil]
      simp only [List.length_cons, ih, List.length_nil]
      omega
    | cons b rest =>
      rw [blkModify_succ_cons]
      simp only [List.length_cons, ih]
      omega

theorem blkModify_get?_self {block : Nat} (ini : Option α) (f : Option α → Option α × β)
    (chain : List (Option (List (Option α)))) (q r : Nat) :
    (blkModify block ini f chain q r).1.get? q =
      some (some ((padded block ini ((chain.get? q).join)).set r
        (f (((padded block ini ((chain.get? q).join)).get? r).join)).1)) := by
  induction q generalizing chain with
  | zero =>
    rw [blkModify_zero_eq]
    cases chain with
    | nil => rfl
    | cons b rest => rfl
  | succ q ih =>
    cases chain with
    | nil =>
      rw [blkModify_succ_nil]
      show (blkModify block ini f [] q r).1.get? q = _
      rw [ih []]
      rfl
    | cons b rest =>
      rw [blkModify_succ_cons]
      show (blkModify block ini f rest q r).1.get? q = _
      rw [ih rest]
      rfl

theorem blkModify_get?_ne {block : Nat} (ini : Option α) (f : Option α → Option α × β)
    (chain : List (Option (List (Option α)))) (q r : Nat) {q' : Nat}
    {b : Option (List (Option α))}
    (hq : q' ≠ q) (hsome : chain.get? q' = some b) :
    (blkModify block ini f chain q r).1.get? q' = some b := by
  induction q generalizing chain q' with
  | zero =>
    cases chain with
    | nil => simp at hsome
    | cons b0 rest =>
      cases q' with
      | zero => exact absurd rfl hq
      | succ q' =>
        rw [blkModify_zero_eq]
        show rest.get? q' = some b
        exact hsome
  | succ q ih =>
    cases chain with
    | nil => simp at hsome
    | cons b0 rest =>
      cases q' with
      | zero =>
        rw [blkModify_succ_cons]
        exact hsome
      | succ q' =>
        rw [blkModify_succ_cons]
        show (blkModify block ini f rest q r).1.get? q' = some b
        exact ih rest (fun h => hq (by omega)) hsome

theorem WFchain_blkModify {block : Nat} {ini : Option α} {f : Option α → Option α × β}
    {chain : List (Option (List (Option α)))} {q r : Nat}
    (hwf : WFchain block chain) :
    WFchain block (blkModify block ini f chain q r).1 := by
  induction q generalizing chain with
  | zero =>
    rw [blkModify_zero_eq]
    intro l hl
    rcases List.mem_cons.mp hl with hl | hl
    · cases hl
      rw [List.length_set]
      cases hc : chain.head?.join with
      | none => simp [padded]
      | some l0 =>
        simp only [padded]
        apply hwf
        cases chain with
        | nil => simp at hc
        | cons b rest =>
          simp only [List.head?] at hc
          cases b with
          | none => simp at hc
          | some l1 =>
            simp at hc
            subst hc
            exact List.mem_cons_self _ _
    · apply hwf
      cases chain with
      | nil => simp at hl
      | cons b rest => exact List.mem_cons_of_mem _ hl
  | succ q ih =>
    cases chain with
    | nil =>
      rw [blkModify_succ_nil]
      intro l hl
      rcases List.mem_cons.mp hl with hl | hl
      · exact absurd hl.symm (by simp)
      · exact ih (fun l h => by simp at h) l hl
    | cons b rest =>
      rw [blkModify_succ_cons]
      intro l hl
      rcases List.mem_cons.mp hl with hl | hl
      · exact hwf l (by rw [hl]; exact List.mem_cons_self _ _)
      · exact ih (fun l h => hwf l (List.mem_cons_of_mem _ h)) l hl

theorem WFchain_replicate {block : Nat} (ini : Option α) :
    WFchain block [some (List.replicate block ini)] := by
  intro l hl
  simp at hl
  simp [hl]

theorem arrayModify_fst_block (a : BArr α) (i : Int) (ini : Option α)
    (f : Option α → Option α × β) :
    (arrayModify a i ini f).1.block = a.block := rfl

theorem arrayModify_fst_dim (a : BArr α) (i : Int) (ini : Option α)
    (f : Option α → Option α × β) :
    (arrayModify a i ini f).1.dim = if (a.dim : Int) ≤ i then (i + 1).toNat else a.dim := rfl

theorem arrayModify_fst_chain (a : BArr α) (i : Int) (ini : Option α)
    (f : Option α → Option α × β) :
    (arrayModify a i ini f).1.chain =
      (blkModify a.block ini f
        (if a.dim = 0 then [some (List.replicate a.block ini)] else a.chain)
        (i.toNat / a.block) (i.toNat % a.block)).1 := rfl

theorem WFchain_arrayModify {a : BArr α} {i : Int} {ini : Option α}
    {f : Option α → Option α × β} (hwf : WFchain a.block a.chain) :
    WFchain (arrayModify a i ini f).1.block (arrayModify a i ini f).1.chain := by
  rw [arrayModify_fst_block, arrayModify_fst_chain]
  apply WFchain_blkModify
  split
  · exact WFchain_replicate ini
  · exact hwf

theorem arrayModify_dim_gt {a : BArr α} {i : Int} (ini : Option α)
    (f : Option α → Option α × β) (hi : 0 ≤ i) :
    i < ((arrayModify a i ini f).1.dim : Int) := by
  rw [arrayModify_fst_dim]
  by_cases hc : (a.dim : Int) ≤ i
  · rw [if_pos hc, Int.toNat_of_nonneg (by omega)]
    omega
  · rw [if_neg hc]; omega

theorem arrayGet_arrayModify_self {a : BArr α} {i : Int} {ini : Option α}
    {f : Option α → Option α × β} {v : α}
    (hb : 0 < a.block) (hi : 0 ≤ i) (hwf : WFchain a.block a.chain)
    (hf : ∀ s, (f s).1 = some v) :
    arrayGet (arrayModify a i ini f).1 i = some v := by
  have hdim : i < ((arrayModify a i ini f).1.dim : Int) := arrayModify_dim_gt ini f hi
  rw [arrayGet, if_neg (by omega), if_neg (by omega),
    arrayModify_fst_block, arrayModify_fst_chain]
  set ch0 := (if a.dim = 0 then [some (List.replicate a.block ini)] else a.chain) with hch
  have hwf0 : WFchain a.block ch0 := by
    rw [hch]; split
    · exact WFchain_replicate ini
    · exact hwf
  rw [blkGet_eq_slotOf hb, slotOf, blkModify_get?_self]
  have hlen : (padded a.block ini ((ch0.get? (i.toNat / a.block)).join)).length = a.block := by
    cases hget : (ch0.get? (i.toNat / a.block)).join with
    | none => simp [padded]
    | some l =>
      simp only [padded]
      apply hwf0
      cases hg : ch0.get? (i.toNat / a.block) with
      | none => rw [hg] at hget; simp at hget
      | some b =>
        rw [hg] at hget
        cases b with
        | none => simp at hget
        | some l2 =>
          simp at hget
          subst hget
          exact List.get?_mem hg
  rw [hf]
  have hr : (i.toNat % a.block) <
      (padded a.block ini ((ch0.get? (i.toNat / a.block)).join)).length := by
    rw [hlen]; exact Nat.mod_lt _ hb
  simp only [List.get?_set_eq]
  rw [List.get?_eq_get hr]
  rfl

theorem arrayGet_arrayModify_frame {a : BArr α} {i i' : Int} {w : α} {ini : Option α}
    {f : Option α → Option α × β}
    (hb : 0 < a.block) (hi : 0 ≤ i) (hne : i' ≠ i)
    (h : arrayGet a i' = some w) :
    arrayGet (arrayModify a i ini f).1 i' = some w := by
  have hi' : 0 ≤ i' := by
    by_contra hc
    rw [arrayGet, if_pos (by omega)] at h
    exact Option.noConfusion h
  have hdim : i' < (a.dim : Int) := by
    by_contra hc
    rw [arrayGet, if_neg (by omega), if_pos (by omega)] at h
    exact Option.noConfusion h
  have hdim0 : a.dim ≠ 0 := by
    intro h0
    rw [h0] at hdim
    omega
  rw [arrayGet, if_neg (by omega), if_neg (by omega)] at h
  have hdim2 : i' < ((arrayModify a i ini f).1.dim : Int) := by
    rw [arrayModify_fst_dim]
    by_cases hcase : (a.dim : Int) ≤ i
    · rw [if_pos hcase, Int.toNat_of_nonneg (by omega)]
      omega
    · rw [if_neg hcase]
      omega
  rw [arrayGet, if_neg (by omega), if_neg (by omega),
    arrayModify_fst_block, arrayModify_fst_chain, if_neg hdim0]
  rw [blkGet_eq_slotOf hb] at h ⊢
  rw [slotOf] at h
  have htn : i'.toNat ≠ i.toNat := by omega
  by_cases hq : i'.toNat / a.block = i.toNat / a.block
  · have hrne : i'.toNat % a.block ≠ i.toNat % a.block := by
      intro hr
      apply htn
      have e1 := Nat.div_add_mod i'.toNat a.block
      have e2 := Nat.div_add_mod i.toNat a.block
      rw [hq, hr] at e1
      exact e1.symm.trans e2
    cases hg : a.chain.get? (i.toNat / a.block) with
    | none => rw [hq, hg] at h; simp at h
    | some b =>
      cases b with
      | none => rw [hq, hg] at h; simp at h
      | some l =>
        rw [hq, hg] at h
        simp only at h
        rw [slotOf, hq, blkModify_get?_self, hg]
        show ((((padded a.block ini (Option.join (some (some l)))).set _ _).get?
          (i'.toNat % a.block)).join) = some w
        simp only [Option.join, padded]
        rw [List.get?_set_ne _ _ (fun hx => hrne hx.symm)]
        exact h
  · rw [slotOf]
    cases hg : a.chain.get? (i'.toNat / a.block) with
    | none => rw [hg] at h; simp at h
    | some b =>
      rw [hg] at h
      rw [blkModify_get?_ne _ _ _ _ _ hq hg]
      exact h

theorem arraySet_fst_block (a : BArr α) (i : Int) (d ini : Option α) :
    (arraySet a i d ini).1.block = a.block := rfl

theorem arraySet_fst_dim (a : BArr α) (i : Int) (d ini : Option α) :
    (arraySet a i d ini).1.dim = if (a.dim : Int) ≤ i then (i + 1).toNat else a.dim := rfl

theorem WFchain_arraySet {a : BArr α} {i : Int} {d ini : Option α}
    (hwf : WFchain a.block a.chain) :
    WFchain (arraySet a i d ini).1.block (arraySet a i d ini).1.chain :=
  WFchain_arrayModify hwf

theorem arrayGet_arraySet_self {a : BArr α} {i : Int} {v : α} {ini : Option α}
    (hb : 0 < a.block) (hi : 0 ≤ i) (hwf : WFchain a.block a.chain) :
    arrayGet (arraySet a i (some v) ini).1 i = some v :=
  arrayGet_arrayModify_self hb hi hwf (fun _ => rfl)

theorem arrayGet_arraySet_frame {a : BArr α} {i i' : Int} {w : α} {d ini : Option α}
    (hb : 0 < a.block) (hi : 0 ≤ i) (hne : i' ≠ i)
    (h : arrayGet a i' = some w) :
    arrayGet (arraySet a i d ini).1 i' = some w :=
  arrayGet_arrayModify_frame hb hi hne h

/-! ## Appending to a block array: the chunk-shape invariant (claim C8) -/

theorem get?_replicate (x : α) (n r : Nat) :
    (List.replicate n x).get? r = if r < n then some x else none := by
  induction n generalizing r with
  | zero => simp
  | succ n ih =>
    cases r with
    | zero => simp [List.replicate]
    | succ r =>
      simp only [List.replicate, List.get?, ih]
      by_cases h : r < n
      · rw [if_pos h, if_pos (by omega)]
      · rw [if_neg h, if_neg (by omega)]

theorem chunkAt_length {block : Nat} (ini : Option α) (vals : List α) (q : Nat) :
    (chunkAt block ini vals q).length = block := by
  simp [chunkAt]

theorem chunkAt_get? {block : Nat} (ini : Option α) (vals : List α) (q r : Nat)
    (hr : r < block) :
    (chunkAt block ini vals q).get? r =
      some (match vals.get? (q * block + r) with | some v => some v | none => ini) := by
  simp only [chunkAt]
  rw [List.get?_map, List.get?_range hr]
  rfl

theorem ceilDiv_succ {block : Nat} (hb : 0 < block) (len : Nat) :
    (len + 1 + block - 1) / block = len / block + 1 := by
  have h : len + 1 + block - 1 = len + block := by omega
  rw [h, Nat.add_div_right _ hb]

theorem chunkInv_init {block : Nat} (hb : 0 < block) (ini : Option α) :
    ChunkInv block ini [] (arrayInit block) := by
  refine ⟨rfl, rfl, ?_, ?_⟩
  · show 0 = (0 + block - 1) / block
    rw [Nat.div_eq_of_lt (by omega)]
  · intro q hq
    simp [arrayInit] at hq

theorem chunkInv_append {block : Nat} {ini : Option α} {vals : List α} {a : BArr α}
    (hb : 0 < block) (h : ChunkInv block ini vals a) (v : α) :
    ChunkInv block ini (vals ++ [v]) (arrayAppend a (some v) ini).1 := by
  obtain ⟨hblock, hdim, hlen, hget⟩ := h
  have hbb : 0 < a.block := hblock ▸ hb
  set q0 := vals.length / a.block with hq0def
  set r0 := vals.length % a.block with hr0def
  have hdm2 : q0 * a.block + r0 = vals.length := by
    rw [hq0def, hr0def, Nat.mul_comm]
    exact Nat.div_add_mod vals.length a.block
  have hrlt : r0 < a.block := Nat.mod_lt _ hbb
  have htn : ((a.dim : Int)).toNat = vals.length := by rw [hdim]; omega
  have htq : ((a.dim : Int)).toNat / a.block = q0 := by rw [htn]
  have htr : ((a.dim : Int)).toNat % a.block = r0 := by rw [htn]
  clear_value q0 r0
  -- the block written at (q0, r0) is the new chunk at q0
  have hchunk_ext : ∀ payload : List (Option α), payload.length = a.block →
      (∀ r, r < a.block →
        payload.get? r = some (match vals.get? (q0 * a.block + r) with
          | some w => some w
          | none => ini)) →
      payload.set r0 (some v) = chunkAt a.block ini (vals ++ [v]) q0 := by
    intro payload hplen hpget
    apply List.ext_get?
    intro r
    by_cases hr : r < a.block
    · rw [chunkAt_get? _ _ _ _ hr]
      by_cases hrr : r = r0
      · subst hrr
        rw [List.get?_set_eq, List.get?_eq_get (by rw [hplen]; exact hr)]
        rw [hdm2, List.get?_concat_length]
        rfl
      · rw [List.get?_set_ne _ _ (fun hx => hrr hx.symm), hpget r hr]
        congr 1
        by_cases hlt : q0 * a.block + r < vals.length
        · rw [List.get?_append hlt]
        · have h1 : vals.get? (q0 * a.block + r) = none := List.get?_len_le (by omega)
          have h2 : (vals ++ [v]).get? (q0 * a.block + r) = none :=
            List.get?_len_le (by simp; omega)
          rw [h1, h2]
    · rw [List.get?_len_le (by rw [List.length_set, hplen]; omega),
        List.get?_len_le (by rw [chunkAt_length]; omega)]
  refine ⟨hblock, ?_, ?_, ?_⟩
  · show (arrayModify a (a.dim : Int) ini _).1.dim = (vals ++ [v]).length
    rw [arrayModify_fst_dim, if_pos (le_refl _)]
    simp only [List.length_append, List.length_singleton]
    omega
  · show (arrayModify a (a.dim : Int) ini _).1.chain.length = _
    rw [arrayModify_fst_chain, blkModify_length, htq]
    simp only [List.length_append, List.length_singleton]
    rw [show vals.length + 1 + block - 1 = vals.length + block by omega,
      Nat.add_div_right _ hb]
    by_cases hdim0 : a.dim = 0
    · have hlen0 : vals.length = 0 := by omega
      rw [if_pos hdim0]
      simp only [List.length_singleton]
      rw [hq0def, hlen0, Nat.zero_div]
      simp
    · rw [if_neg hdim0]
      have hle : a.chain.length ≤ q0 + 1 := by
        rw [hlen]
        calc (vals.length + block - 1) / block ≤ (vals.length + block) / block :=
              Nat.div_le_div_right (by omega)
          _ = vals.length / block + 1 := Nat.add_div_right _ hb
          _ = q0 + 1 := by rw [hq0def, hblock]
      rw [hq0def, hblock] at hle ⊢
      omega
  · intro q' hq'
    have hq'max : q' < max ((if a.dim = 0 then
        [some (List.replicate a.block ini)] else a.chain).length) (q0 + 1) := by
      have h2 : q' < (arrayModify a (a.dim : Int) ini
          (fun s => match (some v : Option α) with
            | some w => (some w, some w)
            | none => (s, s))).1.chain.length := hq'
      rw [arrayModify_fst_chain, blkModify_length, htq] at h2
      exact h2
    show (arrayModify a (a.dim : Int) ini _).1.chain.get? q' = _
    have hq'lt : q' < q0 + 1 := by
      rcases Nat.lt_or_ge q' (q0 + 1) with hc | hc
      · exact hc
      · exfalso
        have hc2 : q' < (if a.dim = 0 then
            [some (List.replicate a.block ini)] else a.chain).length := by
          rcases lt_max_iff.mp hq'max with h3 | h3
          · exact h3
          · omega
        by_cases hdim0 : a.dim = 0
        · rw [if_pos hdim0] at hc2
          simp at hc2
          omega
        · rw [if_neg hdim0] at hc2
          have hceil : a.chain.length ≤ q0 + 1 := by
            rw [hlen]
            calc (vals.length + block - 1) / block ≤ (vals.length + block) / block :=
                  Nat.div_le_div_right (by omega)
              _ = vals.length / block + 1 := Nat.add_div_right _ hb
              _ = q0 + 1 := by rw [hq0def, hblock]
          omega
    rw [arrayModify_fst_chain, htq, htr]
    by_cases hqq : q' = q0
    · rw [hqq]
      rw [blkModify_get?_self]
      have hstep : ∀ chain0 : List (Option (List (Option α))),
          (∀ payload, (chain0.get? q0).join = some payload →
            payload.length = a.block ∧ ∀ r, r < a.block →
              payload.get? r = some (match vals.get? (q0 * a.block + r) with
                | some w => some w | none => ini)) →
          ((chain0.get? q0).join = none → q0 * a.block ≥ vals.length) →
          some (some ((padded a.block ini ((chain0.get? q0).join)).set r0
            (some v))) = some (some (chunkAt block ini (vals ++ [v]) q0)) := by
        intro chain0 hsome hnone
        rw [← hblock]
        congr 2
        cases hjoin : (chain0.get? q0).join with
        | none =>
          simp only [padded]
          apply hchunk_ext
          · exact List.length_replicate _ _
          · intro r hr
            have hge := hnone hjoin
            have hnone2 : vals.get? (q0 * a.block + r) = none :=
              List.get?_len_le (by omega)
            rw [hnone2, get?_replicate, if_pos hr]
        | some payload =>
          simp only [padded]
          exact hchunk_ext payload ((hsome payload hjoin).1) ((hsome payload hjoin).2)
      by_cases hdim0 : a.dim = 0
      · have hlen0 : vals.length = 0 := by omega
        rw [if_pos hdim0]
        have ho1 : ∀ payload : List (Option α),
            (([some (List.replicate a.block ini)] :
              List (Option (List (Option α)))).get? q0).join = some payload →
            payload.length = a.block ∧ ∀ r, r < a.block →
              payload.get? r = some (match vals.get? (q0 * a.block + r) with
                | some w => some w | none => ini) := by
          intro payload hj
          have hq00 : q0 = 0 := by
            rw [hq0def, hlen0, Nat.zero_div]
          rw [hq00] at hj
          simp at hj
          subst hj
          refine ⟨List.length_replicate _ _, ?_⟩
          intro r hr
          have : vals.get? (q0 * a.block + r) = none := List.get?_len_le (by omega)
          rw [this, get?_replicate, if_pos hr]
        have ho2 : (([some (List.replicate a.block ini)] :
            List (Option (List (Option α)))).get? q0).join = none →
            q0 * a.block ≥ vals.length := by
          intro _
          omega
        exact hstep _ ho1 ho2
      · rw [if_neg hdim0]
        have ho1 : ∀ payload : List (Option α),
            ((a.chain.get? q0).join) = some payload →
            payload.length = a.block ∧ ∀ r, r < a.block →
              payload.get? r = some (match vals.get? (q0 * a.block + r) with
                | some w => some w | none => ini) := by
          intro payload hj
          cases hg2 : a.chain.get? q0 with
          | none => rw [hg2] at hj; simp at hj
          | some b =>
            rw [hg2] at hj
            cases b with
            | none => simp at hj
            | some l2 =>
              simp at hj
              subst hj
              have hqlen : q0 < a.chain.length := List.get?_eq_some.mp hg2 |>.1
              have := hget q0 hqlen
              rw [hg2] at this
              have hl2 : l2 = chunkAt block ini vals q0 := by
                injection this with h1
                injection h1
              subst hl2
              refine ⟨by rw [chunkAt_length, hblock], ?_⟩
              intro r hr
              rw [← hblock]
              exact chunkAt_get? _ _ _ _ hr
        have ho2 : ((a.chain.get? q0).join) = none → q0 * a.block ≥ vals.length := by
          intro hj
          -- the target link is past the current chain: only possible on a
          -- block boundary, where the new index starts the fresh block
          have hqlen : ¬ q0 < a.chain.length := by
            intro hc
            rw [(hget q0 hc)] at hj
            simp at hj
          rcases Nat.eq_zero_or_pos r0 with hr00 | hr0pos
          · omega
          · exfalso
            have hceil : a.chain.length = q0 + 1 := by
              rw [hlen]
              have e : vals.length + block - 1 = q0 * a.block + (r0 - 1) + 1 + block - 1 := by
                omega
              rw [e, show q0 * a.block + (r0 - 1) + 1 + block - 1
                  = q0 * a.block + (r0 - 1) + block by omega, Nat.add_div_right _ hb]
              rw [← hblock] at hb ⊢
              rw [Nat.mul_comm, Nat.mul_add_div hb]
              rw [Nat.div_eq_of_lt (by omega)]
            omega
        exact hstep _ ho1 ho2
    · -- untouched link: its chunk is unchanged by the append
      have hq'lt2 : q' < q0 := by omega
      have hq'chain : q' < a.chain.length := by
        rw [hlen]
        have h1 : q0 ≤ (vals.length + block - 1) / block := by
          rw [hq0def, hblock]
          exact Nat.div_le_div_right (by omega)
        omega
      have hdim0 : a.dim ≠ 0 := by
        intro h0
        have : vals.length = 0 := by omega
        rw [hq0def, this, Nat.zero_div] at hq'lt2
        omega
      rw [if_neg hdim0, blkModify_get?_ne _ _ _ _ _ hqq (hget q' hq'chain)]
      congr 2
      apply List.ext_get?
      intro r
      by_cases hr : r < block
      · rw [chunkAt_get? _ _ _ _ hr, chunkAt_get? _ _ _ _ hr]
        congr 1
        have hidx : q' * block + r < vals.length := by
          have h1 : q' * block + r < (q' + 1) * block := by
            rw [Nat.succ_mul]; omega
          have h2 : (q' + 1) * block ≤ q0 * block := Nat.mul_le_mul_right _ (by omega)
          have h3 : q0 * block ≤ vals.length := by
            rw [← hblock] at h2 ⊢
            omega
          omega
        rw [List.get?_append hidx]
      · rw [List.get?_len_le (by rw [chunkAt_length]; omega),
          List.get?_len_le (by rw [chunkAt_length]; omega)]

theorem appendAll_chunkInv {block : Nat} (hb : 0 < block) (ini : Option α)
    (vs : List α) : ∀ (vals0 : List α) (a : BArr α), ChunkInv block ini vals0 a →
    ChunkInv block ini (vals0 ++ vs) (appendAll a ini vs) := by
  induction vs with
  | nil =>
    intro vals0 a h
    simpa [appendAll] using h
  | cons v vs ih =>
    intro vals0 a h
    have h1 := chunkInv_append hb h v
    have h2 := ih (vals0 ++ [v]) _ h1
    rw [List.append_assoc] at h2
    simpa [appendAll] using h2

theorem chunkInv_of_append {block : Nat} (hb : 0 < block) (ini : Option α)
    (vals : List α) :
    ChunkInv block ini vals (appendAll (arrayInit block) ini vals) := by
  have h := appendAll_chunkInv hb ini vals [] _ (chunkInv_init hb ini)
  simpa using h

theorem chunk_slot {block : Nat} {ini : Option α} {vals : List α} {a : BArr α}
    (hb : 0 < block) (h : ChunkInv block ini vals a) {i : Nat} (hi : i < vals.length) :
    slotOf a.chain (i / a.block) (i % a.block) = vals.get? i := by
  obtain ⟨hblock, hdim, hlen, hget⟩ := h
  have hbb : 0 < a.block := hblock ▸ hb
  have hqlt : i / a.block < a.chain.length := by
    rw [hlen, hblock]
    have e : vals.length + block - 1 = vals.length - 1 + 1 + block - 1 := by omega
    rw [e, ceilDiv_succ hb]
    have h2 : i / block ≤ (vals.length - 1) / block := Nat.div_le_div_right (by omega)
    omega
  rw [slotOf, hget _ hqlt]
  show ((chunkAt block ini vals (i / a.block)).get? (i % a.block)).join = vals.get? i
  rw [chunkAt_get? _ _ _ _ (hblock ▸ Nat.mod_lt i hbb)]
  have hqr : i / a.block * block + i % a.block = i := by
    rw [← hblock, Nat.mul_comm]
    exact Nat.div_add_mod i a.block
  rw [hqr]
  cases hv : vals.get? i with
  | none =>
    exfalso
    rw [List.get?_eq_none] at hv
    omega
  | some w => rfl

theorem chunkInv_arrayGet {block : Nat} {ini : Option α} {vals : List α} {a : BArr α}
    (hb : 0 < block) (h : ChunkInv block ini vals a) {i : Nat} (hi : i < vals.length) :
    arrayGet a (i : Int) = vals.get? i := by
  have hdim := h.2.1
  have hbb : 0 < a.block := h.1 ▸ hb
  rw [arrayGet, if_neg (by omega), if_neg (by rw [hdim]; exact not_le.mpr (by omega))]
  have htn : ((i : Int)).toNat = i := by omega
  rw [htn, blkGet_eq_slotOf hbb]
  exact chunk_slot hb h hi

theorem chunkInv_trim_dim {block : Nat} {ini : Option α} {vals : List α} {a : BArr α}
    (h : ChunkInv block ini vals a) {m : Nat} (hm : m < vals.length) :
    (arrayTrim a m).dim = m := by
  have hdim := h.2.1
  rw [arrayTrim, if_neg (by omega)]
  by_cases hm0 : m = 0
  · rw [if_pos hm0, hm0]
    rfl
  · rw [if_neg hm0]
    by_cases hr : m % a.block = 0
    · rw [if_pos hr]
    · rw [if_neg hr]

theorem chunkInv_trim_get {block : Nat} {ini : Option α} {vals : List α} {a : BArr α}
    (hb : 0 < block) (h : ChunkInv block ini vals a) {m : Nat} (hm : m < vals.length)
    {i : Nat} (hi : i < m) :
    arrayGet (arrayTrim a m) (i : Int) = vals.get? i := by
  have hdim := h.2.1
  have hbb : 0 < a.block := h.1 ▸ hb
  have hm0 : m ≠ 0 := by omega
  have hqt : ∀ t : Nat, i / a.block < t →
      arrayGet ⟨a.block, m, a.chain.take t⟩ (i : Int) = vals.get? i := by
    intro t ht
    have hdimlit : ((⟨a.block, m, a.chain.take t⟩ : BArr α).dim : Int) = (m : Int) := rfl
    rw [arrayGet, hdimlit, if_neg (by omega), if_neg (by exact not_le.mpr (by omega))]
    have htn : ((i : Int)).toNat = i := by omega
    rw [htn]
    show blkGet a.block (a.chain.take t) i = vals.get? i
    rw [blkGet_eq_slotOf hbb, slotOf, List.get?_take ht, ← slotOf]
    exact chunk_slot hb h (by omega)
  rw [arrayTrim, if_neg (by omega), if_neg hm0]
  by_cases hr : m % a.block = 0
  · rw [if_pos hr]
    apply hqt
    have he : a.block * (m / a.block) = m := by
      have := Nat.div_add_mod m a.block
      omega
    rw [Nat.div_lt_iff_lt_mul hbb]
    rw [Nat.mul_comm] at he
    omega
  · rw [if_neg hr]
    apply hqt
    have h2 : i / a.block ≤ m / a.block := Nat.div_le_div_right (by omega)
    omega

theorem contigGo_cons {block : Nat} (b : Option (List (Option α))) (rest) (i : Nat) :
    contigGo block (b :: rest) i =
      if i ≤ block then (padded block none b).take i
      else (padded block none b) ++ contigGo block rest (i - block) := rfl

theorem contig_of_chunks {block : Nat} (hb : 0 < block) (ini : Option α) :
    ∀ (chain : List (Option (List (Option α)))) (vals : List α), vals ≠ [] →
      chain.length = (vals.length + block - 1) / block →
      (∀ q, q < chain.length → chain.get? q = some (some (chunkAt block ini vals q))) →
      contigGo block chain vals.length = vals.map some := by
  intro chain
  induction chain with
  | nil =>
    intro vals hne hlen hget
    exfalso
    have hlen1 : 1 ≤ vals.length := by
      cases vals with
      | nil => exact absurd rfl hne
      | cons x xs => simp
    have e : vals.length + block - 1 = vals.length - 1 + 1 + block - 1 := by omega
    rw [e, ceilDiv_succ hb] at hlen
    simp at hlen
  | cons b rest ih =>
    intro vals hne hlen hget
    have hb0 := hget 0 (by simp)
    have hbeq : b = some (chunkAt block ini vals 0) := by
      simp only [List.get?] at hb0
      injection hb0
    subst hbeq
    rw [contigGo_cons]
    simp only [padded]
    by_cases hle : vals.length ≤ block
    · rw [if_pos hle]
      apply List.ext_get?
      intro r
      by_cases hr : r < vals.length
      · rw [List.get?_take hr, chunkAt_get? _ _ _ _ (by omega), List.get?_map]
        simp only [Nat.zero_mul, Nat.zero_add]
        cases hv : vals.get? r with
        | none =>
          exfalso
          rw [List.get?_eq_none] at hv
          omega
        | some w => rfl
      · rw [List.get?_len_le (by rw [List.length_take, chunkAt_length]; omega),
          List.get?_len_le (by rw [List.length_map]; omega)]
    · rw [if_neg hle]
      have hlen1 : block < vals.length := by omega
      have hdroplen : (vals.drop block).length = vals.length - block := by simp
      have hrec := ih (vals.drop block)
        (by intro hd
            have := congrArg List.length hd
            simp at this
            omega)
        (by rw [hdroplen]
            have e : vals.length + block - 1 = (vals.length - block) + block - 1 + block := by
              omega
            rw [List.length_cons] at hlen
            rw [e, Nat.add_div_right _ hb] at hlen
            omega)
        (by intro q hq
            have hq2 : q + 1 < (some (chunkAt block ini vals 0) :: rest).length := by
              simp
              omega
            have := hget (q + 1) hq2
            simp only [List.get?] at this
            rw [this]
            congr 2
            apply List.ext_get?
            intro r
            by_cases hr : r < block
            · have hidx : (q + 1) * block + r = block + (q * block + r) := by
                rw [Nat.succ_mul]
                omega
              rw [chunkAt_get? _ _ _ _ hr, chunkAt_get? _ _ _ _ hr, List.get?_drop, hidx]
            · rw [List.get?_len_le (by rw [chunkAt_length]; omega),
                List.get?_len_le (by rw [chunkAt_length]; omega)])
      rw [show vals.length - block = (vals.drop block).length by rw [hdroplen], hrec]
      have hc0 : chunkAt block ini vals 0 = (vals.take block).map some := by
        apply List.ext_get?
        intro r
        by_cases hr : r < block
        · rw [chunkAt_get? _ _ _ _ hr, List.get?_map, List.get?_take hr]
          simp only [Nat.zero_mul, Nat.zero_add]
          cases hv : vals.get? r with
          | none =>
            exfalso
            rw [List.get?_eq_none] at hv
            omega
          | some w => rfl
        · rw [List.get?_len_le (by rw [chunkAt_length]; omega),
            List.get?_len_le (by rw [List.length_map, List.length_take]; omega)]
      rw [hc0, ← List.map_append, List.take_append_drop]

theorem chunkInv_contig {block : Nat} {ini : Option α} {vals : List α} {a : BArr α}
    (hb : 0 < block) (h : ChunkInv block ini vals a) (hne : vals ≠ []) :
    arrayContiguous a = some (vals.map some) := by
  obtain ⟨hblock, hdim, hlen, hget⟩ := h
  have hlen1 : 1 ≤ vals.length := by
    cases vals with
    | nil => exact absurd rfl hne
    | cons x xs => simp
  rw [arrayContiguous, if_neg (by omega), hdim, hblock]
  rw [contig_of_chunks hb ini a.chain vals hne (hblock ▸ hlen) (hblock ▸ hget)]

/-- C8: Block Array: after appending `a0..aN-1` to an empty array of any
block capacity `>= 1`, `ArrayTrim(m)` for any `m < N` leaves an array of
length `m` whose first `m` elements are exactly `a0..am-1` unchanged, and
`ArrayContiguous()` yields exactly the sequence `a0..aN-1` in order. -/
theorem blockArray_append_trim_contiguous {α : Type} (block : Nat) (hb : 1 ≤ block)
    (vals : List α) (ini : Option α) (m : Nat) (hm : m < vals.length) :
    (arrayTrim (appendAll (arrayInit block) ini vals) m).dim = m ∧
    (∀ i : Nat, i < m →
      arrayGet (arrayTrim (appendAll (arrayInit block) ini vals) m) (i : Int) =
        vals.get? i) ∧
    arrayContiguous (appendAll (arrayInit block) ini vals) = some (vals.map some) ∧
    (∀ i : Nat, i < vals.length →
      arrayGet (appendAll (arrayInit block) ini vals) (i : Int) = vals.get? i) := by
  have h := chunkInv_of_append hb ini vals
  have hne : vals ≠ [] := by
    intro h0
    rw [h0] at hm
    simp at hm
  exact ⟨chunkInv_trim_dim h hm,
    fun i hi => chunkInv_trim_get hb h hm hi,
    chunkInv_contig hb h hne,
    fun i hi => chunkInv_arrayGet hb h hi⟩

/-- Witness for C8 at block capacity 2, values `[10, 20, 30]`, trim to 2. -/
theorem blockArray_append_trim_contiguous_witness :
    (arrayTrim (appendAll (arrayInit 2) (none : Option Int) [10, 20, 30]) 2).dim = 2 ∧
    arrayGet (arrayTrim (appendAll (arrayInit 2) (none : Option Int) [10, 20, 30]) 2)
      ((1 : Nat) : Int) = [(10 : Int), 20, 30].get? 1 ∧
    arrayContiguous (appendAll (arrayInit 2) (none : Option Int) [10, 20, 30]) =
      some ([(10 : Int), 20, 30].map some) := by
  have h := blockArray_append_trim_contiguous (α := Int) 2 (by decide) [10, 20, 30]
    none 2 (by decide)
  exact ⟨h.1, h.2.1 1 (by decide), h.2.2.1⟩

/-! ## Hash-sparse multi-array lemmas -/

theorem updFirst_length (p : γ → Bool) (f : γ → γ) (l : List γ) :
    (updFirst p f l).length = l.length := by
  induction l with
  | nil => rfl
  | cons x xs ih =>
    by_cases hx : p x
    · simp [updFirst, hx]
    · simp [updFirst, hx, ih]

theorem find?_updFirst_same (p : γ → Bool) (f : γ → γ) (l : List γ)
    (hp : ∀ x, p (f x) = p x) :
    (updFirst p f l).find? p = (l.find? p).map f := by
  induction l with
  | nil => rfl
  | cons x xs ih =>
    by_cases hx : p x
    · rw [updFirst, if_pos hx, List.find?_cons_of_pos _ (by rw [hp]; exact hx),
        List.find?_cons_of_pos _ hx]
      rfl
    · rw [updFirst, if_neg hx, List.find?_cons_of_neg _ hx,
        List.find?_cons_of_neg _ (by simp [hx]), ih]

theorem find?_updFirst_other (p pk : γ → Bool) (f : γ → γ) (l : List γ)
    (hp : ∀ x, p (f x) = p x) (hdisj : ∀ x, pk x = true → p x = false) :
    (updFirst pk f l).find? p = l.find? p := by
  induction l with
  | nil => rfl
  | cons x xs ih =>
    by_cases hx : pk x
    · rw [updFirst, if_pos hx, List.find?_cons_of_neg _ (by rw [hp x, hdisj x hx]; simp),
        List.find?_cons_of_neg _ (by rw [hdisj x hx]; simp)]
    · by_cases hpx : p x
      · rw [updFirst, if_neg hx, List.find?_cons_of_pos _ hpx, List.find?_cons_of_pos _ hpx]
      · rw [updFirst, if_neg hx, List.find?_cons_of_neg _ (by simp [hpx]),
          List.find?_cons_of_neg _ (by simp [hpx]), ih]

theorem nmSetBody_ndim (cs : CSizes) (ma : NM V) (g : Glob) (k : List Int)
    (d ini : Option V) : (nmSetBody cs ma g k d ini).1.ndim = ma.ndim := by
  unfold nmSetBody
  dsimp only
  cases findEntry (ma.buckets (hash2 k ma.ndim 0 ma.hmask)) k <;> rfl

theorem nmSetBody_hmask (cs : CSizes) (ma : NM V) (g : Glob) (k : List Int)
    (d ini : Option V) : (nmSetBody cs ma g k d ini).1.hmask = ma.hmask := by
  unfold nmSetBody
  dsimp only
  cases findEntry (ma.buckets (hash2 k ma.ndim 0 ma.hmask)) k <;> rfl

theorem nmSetBody_maxsize (cs : CSizes) (ma : NM V) (g : Glob) (k : List Int)
    (d ini : Option V) : (nmSetBody cs ma g k d ini).1.maxsize = ma.maxsize := by
  unfold nmSetBody
  dsimp only
  cases findEntry (ma.buckets (hash2 k ma.ndim 0 ma.hmask)) k <;> rfl

theorem nmSetBody_gmaxsize (cs : CSizes) (ma : NM V) (g : Glob) (k : List Int)
    (d ini : Option V) : (nmSetBody cs ma g k d ini).2.1.maxsize = g.maxsize := by
  unfold nmSetBody
  dsimp only
  cases findEntry (ma.buckets (hash2 k ma.ndim 0 ma.hmask)) k <;> rfl

theorem nmSetBody_val (cs : CSizes) (ma : NM V) (g : Glob) (k : List Int)
    (v : V) (ini : Option V) :
    (nmSetBody cs ma g k (some v) ini).2.2.val = some v := by
  unfold nmSetBody
  dsimp only
  cases findEntry (ma.buckets (hash2 k ma.ndim 0 ma.hmask)) k <;> rfl

theorem nmSetBody_key (cs : CSizes) (ma : NM V) (g : Glob) (k : List Int)
    (d ini : Option V) :
    (nmSetBody cs ma g k d ini).2.2.key = k ∨
    ∃ e, findEntry (ma.buckets (hash2 k ma.ndim 0 ma.hmask)) k = some e ∧
      (nmSetBody cs ma g k d ini).2.2.key = e.key := by
  unfold nmSetBody
  dsimp only
  cases hf : findEntry (ma.buckets (hash2 k ma.ndim 0 ma.hmask)) k with
  | none => exact Or.inl rfl
  | some e => exact Or.inr ⟨e, rfl, rfl⟩

/-- The observable effect of one `NMultiSet` body on subsequent `NMultiGet`:
the written key reads back as the returned entry, every other key is
unaffected. -/
theorem NMultiGet_nmSetBody (cs : CSizes) (ma : NM V) (g : Glob) (k q : List Int)
    (d ini : Option V) :
    NMultiGet (nmSetBody cs ma g k d ini).1 q =
      if q = k then some (nmSetBody cs ma g k d ini).2.2
      else NMultiGet ma q := by
  have hkeep : ∀ (nv : Option V) (x : NEntry V),
      (({ x with val := nv } : NEntry V).key == q) = (x.key == q) := fun _ _ => rfl
  unfold NMultiGet nmSetBody
  dsimp only
  cases hf : findEntry (ma.buckets (hash2 k ma.ndim 0 ma.hmask)) k with
  | some e =>
    simp only
    by_cases hqk : q = k
    · subst hqk
      rw [if_pos rfl, if_pos rfl, findEntry,
        find?_updFirst_same _ _ _ (hkeep _), ← findEntry, hf]
      rfl
    · rw [if_neg hqk]
      by_cases hh : hash2 q ma.ndim 0 ma.hmask = hash2 k ma.ndim 0 ma.hmask
      · have hdisj : ∀ x : NEntry V, (x.key == k) = true → (x.key == q) = false := by
          intro x hx
          have hxk : x.key = k := by
            have h5 := hx
            rw [beq_iff_eq] at h5
            exact h5
          rw [Bool.eq_false_iff]
          intro hxq
          rw [beq_iff_eq] at hxq
          exact hqk (by rw [← hxq, hxk])
        rw [hh, if_pos rfl, findEntry,
          find?_updFirst_other _ _ _ _ (hkeep _) hdisj, ← findEntry, ← hh]
      · rw [if_neg hh]
  | none =>
    simp only
    by_cases hqk : q = k
    · subst hqk
      rw [if_pos rfl, if_pos rfl, findEntry, List.find?_append, ← findEntry, hf]
      rw [List.find?_cons_of_pos _ (by rw [beq_iff_eq])]
      rfl
    · rw [if_neg hqk]
      by_cases hh : hash2 q ma.ndim 0 ma.hmask = hash2 k ma.ndim 0 ma.hmask
      · rw [hh, if_pos rfl, findEntry, List.find?_append, ← findEntry, ← hh]
        have hnone : List.find? (fun e => e.key == q)
            [(⟨k, ma.nextId + 1, (match d with | some v => some v | none => ini),
              ma.nextId⟩ : NEntry V)] = none := by
          rw [List.find?_cons_of_neg, List.find?_nil]
          show ¬ (k == q) = true
          rw [beq_iff_eq]
          exact fun hc => hqk hc.symm
        rw [findEntry, hnone, Option.or_none]
      · rw [if_neg hh]

theorem NMultiSet_no_evict (cs : CSizes) (ma : NM V) (g : Glob) (k : List Int)
    (d ini : Option V) (h1 : ma.maxsize ≤ 0) (h2 : g.maxsize ≤ 0) :
    NMultiSet cs ma g k d ini = nmSetBody cs ma g k d ini := by
  have hc1 : ¬ (0 < ma.maxsize ∧ ma.maxsize ≤ ma.totalsize) :=
    fun hc => absurd hc.1 (not_lt.mpr h1)
  have hc2 : ¬ (0 < g.maxsize ∧ g.maxsize ≤ g.totalsize ∧
      g.totalsize / 10 < ma.totalsize) :=
    fun hc => absurd hc.1 (not_lt.mpr h2)
  simp only [NMultiSet, if_neg hc1, if_neg hc2]

theorem lastVal_from (q : List Int) (ops : List (List Int × V)) :
    ∀ acc : Option V,
      ops.foldl (fun acc op => if op.1 = q then some op.2 else acc) acc =
        (match lastVal ops q with
         | some v => some v
         | none => acc) := by
  induction ops with
  | nil => intro acc; rfl
  | cons op rest ih =>
    intro acc
    show rest.foldl _ (if op.1 = q then some op.2 else acc) = _
    rw [ih]
    have h2 : lastVal (op :: rest) q =
        (match lastVal rest q with
         | some v => some v
         | none => if op.1 = q then some op.2 else none) := by
      show rest.foldl _ (if op.1 = q then some op.2 else none) = _
      rw [ih]
    rw [h2]
    cases lastVal rest q with
    | some v => rfl
    | none =>
      by_cases hc : op.1 = q
      · rw [if_pos hc, if_pos hc]
      · rw [if_neg hc, if_neg hc]

/-- Last-write-wins for a sequence of `NMultiSet` calls with eviction
disabled (no local and no global budget): the generalized induction. -/
theorem nmApply_get (cs : CSizes) (ini : Option V) (ops : List (List Int × V)) :
    ∀ (ma : NM V) (g : Glob), ma.maxsize ≤ 0 → g.maxsize ≤ 0 → ∀ q : List Int,
    (NMultiGet (nmApply cs ini (ma, g) ops).1 q).map (fun e => e.val) =
      (match lastVal ops q with
       | some v => some (some v)
       | none => (NMultiGet ma q).map (fun e => e.val)) := by
  induction ops with
  | nil => intro ma g _ _ q; rfl
  | cons op rest ih =>
    intro ma g h1 h2 q
    have hstep : nmApply cs ini (ma, g) (op :: rest) =
        nmApply cs ini ((NMultiSet cs ma g op.1 (some op.2) ini).1,
          (NMultiSet cs ma g op.1 (some op.2) ini).2.1) rest := rfl
    rw [hstep, NMultiSet_no_evict cs ma g _ _ _ h1 h2]
    rw [ih _ _ (by rw [nmSetBody_maxsize]; exact h1)
      (by rw [nmSetBody_gmaxsize]; exact h2) q]
    have hl : lastVal (op :: rest) q =
        (match lastVal rest q with
         | some v => some v
         | none => if op.1 = q then some op.2 else none) := by
      show rest.foldl _ (if op.1 = q then some op.2 else none) = _
      rw [lastVal_from]
    rw [hl]
    cases hlv : lastVal rest q with
    | some v => rfl
    | none =>
      rw [NMultiGet_nmSetBody]
      by_cases hq : q = op.1
      · rw [if_pos hq, if_pos hq.symm]
        show some ((nmSetBody cs ma g op.1 (some op.2) ini).2.2.val) = some (some op.2)
        rw [nmSetBody_val]
      · rw [if_neg hq, if_neg (fun hc => hq hc.symm)]

theorem NMultiFreeData_mode0 (ma : NM V) (g : Glob)
    (h : ¬ ma.totalsize < ma.maxsize) (hmode : ma.cleanMode = 0) :
    NMultiFreeData ma g =
      ({ ma with buckets := fun _ => [], totalsize := 0, numelem := 0, cleanMode := -1 },
       { g with totalsize := g.totalsize - ma.totalsize }) := by
  unfold NMultiFreeData
  dsimp only
  rw [if_pos hmode, if_neg h, if_pos rfl]

/-- C3: On a hash-sparse multi-array whose byte budget is exhausted
(`0 < maxsize ≤ totalsize`), the flush performed at the start of the next
`Set` (i) clears every bucket, so every key reads back absent, (ii) zeroes
the cache's tracked total — a reduction by exactly the accumulated bytes —
(iii) reduces the global ledger by the same amount, (iv) is exactly what
`NMultiSet` runs before its insertion body, and afterwards (v) the new key
reads back with the new value and (vi) every other key reads absent. -/
theorem nmulti_eviction_clears_and_accounts {V : Type} (cs : CSizes) (ma : NM V)
    (g : Glob) (k : List Int) (v : V) (ini : Option V)
    (hmax : 0 < ma.maxsize) (htot : ma.maxsize ≤ ma.totalsize) :
    (∀ q, NMultiGet (NMultiFreeData { ma with cleanMode := 0 } g).1 q = none) ∧
    (NMultiFreeData { ma with cleanMode := 0 } g).1.totalsize = 0 ∧
    (NMultiFreeData { ma with cleanMode := 0 } g).2.totalsize =
      g.totalsize - ma.totalsize ∧
    NMultiSet cs ma g k (some v) ini =
      nmSetBody cs (NMultiFreeData { ma with cleanMode := 0 } g).1
        (NMultiFreeData { ma with cleanMode := 0 } g).2 k (some v) ini ∧
    (NMultiGet (NMultiSet cs ma g k (some v) ini).1 k).map (fun e => e.val) =
      some (some v) ∧
    (∀ q, q ≠ k → NMultiGet (NMultiSet cs ma g k (some v) ini).1 q = none) := by
  have hfd := NMultiFreeData_mode0 { ma with cleanMode := 0 } g
    (not_lt.mpr htot) rfl
  have hset : NMultiSet cs ma g k (some v) ini =
      nmSetBody cs (NMultiFreeData { ma with cleanMode := 0 } g).1
        (NMultiFreeData { ma with cleanMode := 0 } g).2 k (some v) ini := by
    simp only [NMultiSet, if_pos (And.intro hmax htot)]
  have hcleared : ∀ q, NMultiGet (NMultiFreeData { ma with cleanMode := 0 } g).1 q
      = none := by
    intro q
    rw [hfd]
    rfl
  refine ⟨hcleared, by rw [hfd], by rw [hfd], hset, ?_, ?_⟩
  · rw [hset, NMultiGet_nmSetBody, if_pos rfl]
    show some ((nmSetBody cs _ _ k (some v) ini).2.2.val) = some (some v)
    rw [nmSetBody_val]
  · intro q hq
    rw [hset, NMultiGet_nmSetBody, if_neg hq]
    exact hcleared q

/-- Witness for C3: a two-dimensional cache holding one entry for key
`[0,0]`, with budget 1 byte and 1 byte accounted; setting `[1,2]` first
flushes everything (so `[0,0]` reads absent afterwards) and then inserts. -/
theorem nmulti_eviction_clears_and_accounts_witness :
    (NMultiGet (NMultiSet ⟨1, 1, 1, 1⟩
        (⟨2, 8, 8, 4, 3, 1, 1, 0, 1, -1, fun _ => [⟨[0, 0], 0, some (5 : Int), 1⟩], 2⟩ : NM Int)
        ⟨-1, 100, 0⟩ [1, 2] (some 7) none).1 [1, 2]).map (fun e => e.val) =
      some (some 7) ∧
    NMultiGet (NMultiSet ⟨1, 1, 1, 1⟩
        (⟨2, 8, 8, 4, 3, 1, 1, 0, 1, -1, fun _ => [⟨[0, 0], 0, some (5 : Int), 1⟩], 2⟩ : NM Int)
        ⟨-1, 100, 0⟩ [1, 2] (some 7) none).1 [0, 0] = none ∧
    (NMultiFreeData { (⟨2, 8, 8, 4, 3, 1, 1, 0, 1, -1,
        fun _ => [⟨[0, 0], 0, some (5 : Int), 1⟩], 2⟩ : NM Int) with cleanMode := 0 }
      ⟨-1, 100, 0⟩).1.totalsize = 0 := by
  have h := nmulti_eviction_clears_and_accounts ⟨1, 1, 1, 1⟩
    (⟨2, 8, 8, 4, 3, 1, 1, 0, 1, -1, fun _ => [⟨[0, 0], 0, some (5 : Int), 1⟩], 2⟩ : NM Int)
    ⟨-1, 100, 0⟩ [1, 2] 7 none zero_lt_one (le_refl 1)
  exact ⟨h.2.2.2.2.1, h.2.2.2.2.2 [0, 0] (by decide), h.2.1⟩

theorem nmSetBody_overwrite (cs : CSizes) (ma : NM V) (g : Glob) (k : List Int)
    (v2 : V) (ini : Option V) (e : NEntry V)
    (hf : findEntry (ma.buckets (hash2 k ma.ndim 0 ma.hmask)) k = some e) :
    nmSetBody cs ma g k (some v2) ini =
      ({ ma with buckets := fun h2 =>
          if h2 = hash2 k ma.ndim 0 ma.hmask then
            (updFirst (fun x => x.key == k) (fun x => { x with val := some v2 })
              (ma.buckets (hash2 k ma.ndim 0 ma.hmask)))
          else ma.buckets h2 },
       g, { e with val := some v2 }) := by
  unfold nmSetBody
  dsimp only
  rw [hf]

/-- C4: Setting the same key twice on the hash-sparse multi-array
overwrites in place: the second `Set` returns the first entry's data
buffer and lock (same allocation identities, no new allocation), stores
the new value, and leaves the element count, the per-cache and global byte
totals, and every bucket's length unchanged. -/
theorem nmulti_set_same_key_update_in_place {V : Type} (cs : CSizes) (ma : NM V)
    (g : Glob) (k : List Int) (v1 v2 : V) (ini : Option V)
    (h1 : ma.maxsize ≤ 0) (h2 : g.maxsize ≤ 0) :
    (NMultiSet cs (NMultiSet cs ma g k (some v1) ini).1
        (NMultiSet cs ma g k (some v1) ini).2.1 k (some v2) ini).2.2.dataId =
      (NMultiSet cs ma g k (some v1) ini).2.2.dataId ∧
    (NMultiSet cs (NMultiSet cs ma g k (some v1) ini).1
        (NMultiSet cs ma g k (some v1) ini).2.1 k (some v2) ini).2.2.lockId =
      (NMultiSet cs ma g k (some v1) ini).2.2.lockId ∧
    (NMultiSet cs (NMultiSet cs ma g k (some v1) ini).1
        (NMultiSet cs ma g k (some v1) ini).2.1 k (some v2) ini).2.2.val = some v2 ∧
    (NMultiSet cs (NMultiSet cs ma g k (some v1) ini).1
        (NMultiSet cs ma g k (some v1) ini).2.1 k (some v2) ini).1.numelem =
      (NMultiSet cs ma g k (some v1) ini).1.numelem ∧
    (NMultiSet cs (NMultiSet cs ma g k (some v1) ini).1
        (NMultiSet cs ma g k (some v1) ini).2.1 k (some v2) ini).1.totalsize =
      (NMultiSet cs ma g k (some v1) ini).1.totalsize ∧
    (NMultiSet cs (NMultiSet cs ma g k (some v1) ini).1
        (NMultiSet cs ma g k (some v1) ini).2.1 k (some v2) ini).2.1.totalsize =
      (NMultiSet cs ma g k (some v1) ini).2.1.totalsize ∧
    (NMultiSet cs (NMultiSet cs ma g k (some v1) ini).1
        (NMultiSet cs ma g k (some v1) ini).2.1 k (some v2) ini).1.nextId =
      (NMultiSet cs ma g k (some v1) ini).1.nextId ∧
    (∀ h : Nat,
      ((NMultiSet cs (NMultiSet cs ma g k (some v1) ini).1
          (NMultiSet cs ma g k (some v1) ini).2.1 k (some v2) ini).1.buckets h).length =
        ((NMultiSet cs ma g k (some v1) ini).1.buckets h).length) ∧
    (NMultiGet (NMultiSet cs (NMultiSet cs ma g k (some v1) ini).1
        (NMultiSet cs ma g k (some v1) ini).2.1 k (some v2) ini).1 k).map
      (fun e => e.val) = some (some v2) := by
  have e1def : NMultiSet cs ma g k (some v1) ini = nmSetBody cs ma g k (some v1) ini :=
    NMultiSet_no_evict cs ma g k (some v1) ini h1 h2
  have hfind : findEntry ((nmSetBody cs ma g k (some v1) ini).1.buckets
      (hash2 k (nmSetBody cs ma g k (some v1) ini).1.ndim 0
        (nmSetBody cs ma g k (some v1) ini).1.hmask)) k =
      some (nmSetBody cs ma g k (some v1) ini).2.2 := by
    have h := NMultiGet_nmSetBody cs ma g k k (some v1) ini
    rw [if_pos rfl] at h
    exact h
  have hs2 : NMultiSet cs (nmSetBody cs ma g k (some v1) ini).1
      (nmSetBody cs ma g k (some v1) ini).2.1 k (some v2) ini =
      nmSetBody cs (nmSetBody cs ma g k (some v1) ini).1
        (nmSetBody cs ma g k (some v1) ini).2.1 k (some v2) ini :=
    NMultiSet_no_evict cs _ _ k (some v2) ini
      (by rw [nmSetBody_maxsize]; exact h1)
      (by rw [nmSetBody_gmaxsize]; exact h2)
  have hov := nmSetBody_overwrite cs (nmSetBody cs ma g k (some v1) ini).1
    (nmSetBody cs ma g k (some v1) ini).2.1 k v2 ini _ hfind
  have hget : (NMultiGet (nmSetBody cs (nmSetBody cs ma g k (some v1) ini).1
      (nmSetBody cs ma g k (some v1) ini).2.1 k (some v2) ini).1 k).map
      (fun e => e.val) = some (some v2) := by
    rw [NMultiGet_nmSetBody, if_pos rfl]
    show some ((nmSetBody cs _ _ k (some v2) ini).2.2.val) = some (some v2)
    rw [nmSetBody_val]
  rw [e1def, hs2, hov]
  refine ⟨rfl, rfl, rfl, rfl, rfl, rfl, rfl, ?_, ?_⟩
  · intro h
    dsimp only
    by_cases hh : h = hash2 k (nmSetBody cs ma g k (some v1) ini).1.ndim 0
        (nmSetBody cs ma g k (some v1) ini).1.hmask
    · rw [if_pos hh, updFirst_length, hh]
    · rw [if_neg hh]
  · rw [← hov]
    exact hget

/-- Witness for C4 on a freshly initialized two-dimensional cache. -/
theorem nmulti_set_same_key_update_in_place_witness :
    (NMultiGet (NMultiSet ⟨1, 1, 1, 1⟩
        (NMultiSet ⟨1, 1, 1, 1⟩ (NMultiInit Int ⟨1, 1, 1, 1⟩ 8 2 ⟨-1, 0, 0⟩).1
          ⟨-1, 0, 0⟩ [3, 4] (some 11) none).1
        (NMultiSet ⟨1, 1, 1, 1⟩ (NMultiInit Int ⟨1, 1, 1, 1⟩ 8 2 ⟨-1, 0, 0⟩).1
          ⟨-1, 0, 0⟩ [3, 4] (some 11) none).2.1 [3, 4] (some 22) none).1 [3, 4]).map
      (fun e => e.val) = some (some 22) := by
  have h := nmulti_set_same_key_update_in_place ⟨1, 1, 1, 1⟩
    (NMultiInit Int ⟨1, 1, 1, 1⟩ 8 2 ⟨-1, 0, 0⟩).1 ⟨-1, 0, 0⟩ [3, 4] 11 22 none
    (by decide) (by decide)
  exact h.2.2.2.2.2.2.2.2

/-! ## Hybrid multi-array: the index decomposition (`MMultiIndex`) -/

theorem mIndexGo_nil : mIndexGo ([] : List (Int × Nat)) = (true, [], [], []) := rfl

theorem mIndexGo_cons (ki : Int) (bi : Nat) (rest : List (Int × Nat)) :
    mIndexGo ((ki, bi) :: rest) =
      if (bi : Int) ≤ ki then
        (false, ki.tdiv bi :: (mIndexGo rest).2.1,
          toUS (ki.tdiv bi) :: (mIndexGo rest).2.2.1,
          toUS (ki.tmod bi) :: (mIndexGo rest).2.2.2)
      else
        ((mIndexGo rest).1, 0 :: (mIndexGo rest).2.1,
          0 :: (mIndexGo rest).2.2.1, toUS ki :: (mIndexGo rest).2.2.2) := rfl

/-- `isf` is set exactly when every coordinate is inside its block range
(array.c:1031-1034; negative coordinates also keep `isf`, matching the
signed comparison `k[i] >= b`). -/
theorem mIndexGo_isf (l : List (Int × Nat)) :
    (mIndexGo l).1 = true ↔ ∀ p ∈ l, p.1 < (p.2 : Int) := by
  induction l with
  | nil => simp [mIndexGo_nil]
  | cons p rest ih =>
    obtain ⟨ki, bi⟩ := p
    rw [mIndexGo_cons]
    by_cases h : (bi : Int) ≤ ki
    · rw [if_pos h]
      dsimp only
      simp only [List.mem_cons]
      constructor
      · intro hf; exact absurd hf (by simp)
      · intro hall
        exact absurd (hall (ki, bi) (Or.inl rfl)) (not_lt.mpr h)
    · rw [if_neg h]
      dsimp only
      simp only [List.mem_cons]
      constructor
      · intro hf p hp
        rcases hp with hp | hp
        · rw [hp]; exact not_le.mp h
        · exact (ih.mp hf) p hp
      · intro hall
        exact ih.mpr (fun p hp => hall p (Or.inr hp))

theorem toUS_small {x : Int} (h0 : 0 ≤ x) (h1 : x < 65536) : toUS x = x.toNat := by
  unfold toUS
  rw [Int.emod_eq_of_lt h0 h1]

/-- For non-negative coordinates the `iidx` vector is the vector of
truncating quotients (in-range coordinates contribute quotient 0). -/
theorem mIndexGo_iidx (l : List (Int × Nat)) (h : ∀ p ∈ l, 0 ≤ p.1) :
    (mIndexGo l).2.1 = l.map (fun p => p.1.tdiv (p.2 : Int)) := by
  induction l with
  | nil => rfl
  | cons p rest ih =>
    obtain ⟨ki, bi⟩ := p
    have hk : 0 ≤ ki := h (ki, bi) (List.mem_cons_self _ _)
    have hrest := fun p hp => h p (List.mem_cons_of_mem _ hp)
    rw [mIndexGo_cons]
    by_cases hc : (bi : Int) ≤ ki
    · rw [if_pos hc]
      dsimp only [List.map]
      rw [ih hrest]
    · rw [if_neg hc]
      dsimp only [List.map]
      rw [ih hrest, Int.tdiv_eq_zero_of_lt hk (not_le.mp hc)]

/-- For well-formed coordinates the `sidx` vector is the vector of
truncating quotients, cast to `Nat` without truncation. -/
theorem mIndexGo_sidx (l : List (Int × Nat))
    (h : ∀ p ∈ l, 0 ≤ p.1 ∧ p.1.tdiv (p.2 : Int) < 65536) :
    (mIndexGo l).2.2.1 = l.map (fun p => (p.1.tdiv (p.2 : Int)).toNat) := by
  induction l with
  | nil => rfl
  | cons p rest ih =>
    obtain ⟨ki, bi⟩ := p
    have hk := h (ki, bi) (List.mem_cons_self _ _)
    have hrest := fun p hp => h p (List.mem_cons_of_mem _ hp)
    rw [mIndexGo_cons]
    by_cases hc : (bi : Int) ≤ ki
    · rw [if_pos hc]
      dsimp only [List.map]
      rw [ih hrest, toUS_small (Int.tdiv_nonneg hk.1 (Int.natCast_nonneg bi)) hk.2]
    · rw [if_neg hc]
      dsimp only [List.map]
      rw [ih hrest, Int.tdiv_eq_zero_of_lt hk.1 (not_le.mp hc)]
      rfl

/-- For well-formed coordinates and block sizes the `ridx` vector is the
vector of truncating remainders, cast to `Nat` without truncation. -/
theorem mIndexGo_ridx (l : List (Int × Nat))
    (h : ∀ p ∈ l, 0 ≤ p.1 ∧ 1 ≤ p.2 ∧ p.2 < 65536) :
    (mIndexGo l).2.2.2 = l.map (fun p => (p.1.tmod (p.2 : Int)).toNat) := by
  induction l with
  | nil => rfl
  | cons p rest ih =>
    obtain ⟨ki, bi⟩ := p
    obtain ⟨hk0, hb1, hb2⟩ := h (ki, bi) (List.mem_cons_self _ _)
    have hrest := fun p hp => h p (List.mem_cons_of_mem _ hp)
    have hbpos : (0 : Int) < (bi : Int) := by exact_mod_cast hb1
    have hbcast : ((bi : Int)) < 65536 := by exact_mod_cast hb2
    rw [mIndexGo_cons]
    by_cases hc : (bi : Int) ≤ ki
    · rw [if_pos hc]
      dsimp only [List.map]
      rw [ih hrest, toUS_small (Int.tmod_nonneg _ hk0)
        (lt_trans (Int.tmod_lt_of_pos ki hbpos) hbcast)]
    · rw [if_neg hc]
      dsimp only [List.map]
      rw [ih hrest]
      have hmod : ki.tmod (bi : Int) = ki := by
        rw [Int.tmod_eq_emod hk0 (le_of_lt hbpos), Int.emod_eq_of_lt hk0 (not_le.mp hc)]
      rw [hmod, toUS_small hk0 (lt_trans (not_le.mp hc) hbcast)]

theorem tmod_toNat_lt {ki : Int} {bi : Nat} (h0 : 0 ≤ ki) (hb : 1 ≤ bi) :
    (ki.tmod (bi : Int)).toNat < bi := by
  have hbpos : (0 : Int) < (bi : Int) := by exact_mod_cast hb
  have h1 : ki.tmod (bi : Int) < (bi : Int) := Int.tmod_lt_of_pos ki hbpos
  have h2 : 0 ≤ ki.tmod (bi : Int) := Int.tmod_nonneg _ h0
  omega

/-- For a key whose every coordinate is in range, all quotients are 0. -/
theorem map_tdiv_inrange (bs : List Nat) : ∀ k : List Int,
    (∀ p ∈ k.zip bs, 0 ≤ p.1 ∧ p.1 < (p.2 : Int)) → k.length = bs.length →
    (k.zip bs).map (fun p => (p.1.tdiv (p.2 : Int)).toNat) = List.replicate bs.length 0 := by
  induction bs with
  | nil =>
    intro k _ hlen
    cases k with
    | nil => rfl
    | cons => simp at hlen
  | cons b bt ih =>
    intro k h hlen
    cases k with
    | nil => simp at hlen
    | cons ki kt =>
      obtain ⟨h0, h1⟩ := h (ki, b) (by rw [List.zip_cons_cons]; exact List.mem_cons_self _ _)
      have htail := fun p hp => h p (by rw [List.zip_cons_cons]; exact List.mem_cons_of_mem _ hp)
      rw [List.zip_cons_cons, List.map_cons, ih kt htail (by simpa using hlen),
        Int.tdiv_eq_zero_of_lt h0 h1]
      rfl

/-- For a key whose every coordinate is in range, the remainders are the
coordinates themselves. -/
theorem map_tmod_inrange (bs : List Nat) : ∀ k : List Int,
    (∀ p ∈ k.zip bs, 0 ≤ p.1 ∧ p.1 < (p.2 : Int)) → k.length = bs.length →
    (k.zip bs).map (fun p => (p.1.tmod (p.2 : Int)).toNat) = k.map Int.toNat := by
  induction bs with
  | nil =>
    intro k _ hlen
    cases k with
    | nil => rfl
    | cons => simp at hlen
  | cons b bt ih =>
    intro k h hlen
    cases k with
    | nil => simp at hlen
    | cons ki kt =>
      obtain ⟨h0, h1⟩ := h (ki, b) (by rw [List.zip_cons_cons]; exact List.mem_cons_self _ _)
      have htail := fun p hp => h p (by rw [List.zip_cons_cons]; exact List.mem_cons_of_mem _ hp)
      rw [List.zip_cons_cons, List.map_cons, ih kt htail (by simpa using hlen)]
      have hmod : ki.tmod (b : Int) = ki := by
        rw [Int.tmod_eq_emod h0 (Int.natCast_nonneg b), Int.emod_eq_of_lt h0 h1]
      rw [hmod]
      rfl

/-! ## The residual offset: `foldl` bridge, radix form, bound, injectivity -/

theorem foldl_zipSum (l : List (Nat × Nat)) :
    ∀ acc : Nat, l.foldl (fun a p => a + p.1 * p.2) acc = acc + zipSum l := by
  induction l with
  | nil => intro acc; show acc = acc + 0; omega
  | cons p rest ih =>
    intro acc
    show rest.foldl _ (acc + p.1 * p.2) = acc + zipSum (p :: rest)
    rw [ih]
    show acc + p.1 * p.2 + zipSum rest = acc + (p.1 * p.2 + zipSum rest)
    omega

theorem zipSum_iblock (bs : List Nat) :
    ∀ (rs : List Nat) (c : Nat), rs.length = bs.length →
      zipSum (rs.zip (c :: iblockGo c bs)) = c * radixVal bs rs := by
  induction bs with
  | nil =>
    intro rs c hlen
    cases rs with
    | nil => show (0 : Nat) = c * 0; omega
    | cons => simp at hlen
  | cons b bt ih =>
    intro rs c hlen
    cases rs with
    | nil => simp at hlen
    | cons r rt =>
      rw [List.zip_cons_cons]
      show r * c + zipSum (rt.zip (iblockGo c (b :: bt))) = _
      have hib : iblockGo c (b :: bt) = (b * c) :: iblockGo (b * c) bt := rfl
      rw [hib, ih rt (b * c) (by simpa using hlen)]
      show r * c + b * c * radixVal bt rt = c * (r + b * radixVal bt rt)
      ring

/-- The `aidx` summation of array.c:1040-1043 computes the little-endian
mixed-radix value of the residual vector in base `block`. -/
theorem aidxOf_eq_radix (bs rs : List Nat) (h : rs.length = bs.length) :
    aidxOf rs (iblockGo 1 bs) = radixVal bs rs := by
  cases bs with
  | nil =>
    cases rs with
    | nil => rfl
    | cons => simp at h
  | cons b bt =>
    cases rs with
    | nil => simp at h
    | cons r rt =>
      show r + ((rt.zip (iblockGo 1 (b :: bt))).foldl (fun acc p => acc + p.1 * p.2) 0) = _
      rw [foldl_zipSum]
      have hib : iblockGo 1 (b :: bt) = (b * 1) :: iblockGo (b * 1) bt := rfl
      rw [hib, Nat.mul_one, zipSum_iblock bt rt b (by simpa using h)]
      show r + (0 + b * radixVal bt rt) = r + b * radixVal bt rt
      omega

theorem radixVal_lt_prod (bs : List Nat) : ∀ rs : List Nat, rs.length = bs.length →
    (∀ p ∈ rs.zip bs, p.1 < p.2) → radixVal bs rs < bs.prod := by
  induction bs with
  | nil =>
    intro rs hlen _
    cases rs with
    | nil => show (0 : Nat) < List.prod []; simp
    | cons => simp at hlen
  | cons b bt ih =>
    intro rs hlen hr
    cases rs with
    | nil => simp at hlen
    | cons r rt =>
      have hhead : r < b := hr (r, b) (by rw [List.zip_cons_cons]; exact List.mem_cons_self _ _)
      have htail := fun p hp => hr p (by rw [List.zip_cons_cons]; exact List.mem_cons_of_mem _ hp)
      have hlt := ih rt (by simpa using hlen) htail
      show r + b * radixVal bt rt < (b :: bt).prod
      rw [List.prod_cons]
      calc r + b * radixVal bt rt < b + b * radixVal bt rt := by omega
        _ = b * (radixVal bt rt + 1) := by ring
        _ ≤ b * bt.prod := Nat.mul_le_mul_left _ hlt

theorem radixVal_inj (bs : List Nat) : ∀ rs rs' : List Nat,
    rs.length = bs.length → rs'.length = bs.length →
    (∀ p ∈ rs.zip bs, p.1 < p.2) → (∀ p ∈ rs'.zip bs, p.1 < p.2) →
    radixVal bs rs = radixVal bs rs' → rs = rs' := by
  induction bs with
  | nil =>
    intro rs rs' h1 h2 _ _ _
    cases rs with
    | nil =>
      cases rs' with
      | nil => rfl
      | cons => simp at h2
    | cons => simp at h1
  | cons b bt ih =>
    intro rs rs' h1 h2 hr hr' heq
    cases rs with
    | nil => simp at h1
    | cons r rt =>
      cases rs' with
      | nil => simp at h2
      | cons r' rt' =>
        have hh : r < b := hr (r, b) (by rw [List.zip_cons_cons]; exact List.mem_cons_self _ _)
        have hh' : r' < b := hr' (r', b) (by rw [List.zip_cons_cons]; exact List.mem_cons_self _ _)
        have htail := fun p hp => hr p (by rw [List.zip_cons_cons]; exact List.mem_cons_of_mem _ hp)
        have htail' := fun p hp => hr' p (by rw [List.zip_cons_cons]; exact List.mem_cons_of_mem _ hp)
        have heq2 : r + b * radixVal bt rt = r' + b * radixVal bt rt' := heq
        have hmod : r = r' := by
          have e1 := Nat.add_mul_mod_self_left r b (radixVal bt rt)
          have e2 := Nat.add_mul_mod_self_left r' b (radixVal bt rt')
          rw [heq2] at e1
          rw [e2, Nat.mod_eq_of_lt hh, Nat.mod_eq_of_lt hh'] at e1
          exact e1.symm
        have hX : radixVal bt rt = radixVal bt rt' := by
          have hbX : b * radixVal bt rt = b * radixVal bt rt' := by omega
          exact Nat.eq_of_mul_eq_mul_left (by omega) hbX
        rw [hmod, ih rt rt' (by simpa using h1) (by simpa using h2) htail htail' hX]

/-- A well-formed key is recovered from its per-coordinate quotients and
remainders: the hashed decomposition `(sidx, ridx)` is injective. -/
theorem key_eq_of_div_mod (bs : List Nat) : ∀ k q : List Int,
    k.length = bs.length → q.length = bs.length →
    (∀ p ∈ k.zip bs, 0 ≤ p.1) → (∀ p ∈ q.zip bs, 0 ≤ p.1) →
    (k.zip bs).map (fun p => (p.1.tdiv (p.2 : Int)).toNat) =
      (q.zip bs).map (fun p => (p.1.tdiv (p.2 : Int)).toNat) →
    (k.zip bs).map (fun p => (p.1.tmod (p.2 : Int)).toNat) =
      (q.zip bs).map (fun p => (p.1.tmod (p.2 : Int)).toNat) →
    k = q := by
  induction bs with
  | nil =>
    intro k q hk hq _ _ _ _
    cases k with
    | nil =>
      cases q with
      | nil => rfl
      | cons => simp at hq
    | cons => simp at hk
  | cons b bt ih =>
    intro k q hk hq hknn hqnn hdiv hmod
    cases k with
    | nil => simp at hk
    | cons ki kt =>
      cases q with
      | nil => simp at hq
      | cons qi qt =>
        rw [List.zip_cons_cons, List.zip_cons_cons, List.map_cons, List.map_cons] at hdiv hmod
        injection hdiv with hdiv1 hdiv2
        injection hmod with hmod1 hmod2
        simp only [] at hdiv1 hmod1
        have hknn0 : 0 ≤ ki := hknn (ki, b)
          (by rw [List.zip_cons_cons]; exact List.mem_cons_self _ _)
        have hqnn0 : 0 ≤ qi := hqnn (qi, b)
          (by rw [List.zip_cons_cons]; exact List.mem_cons_self _ _)
        have hdivI : ki.tdiv (b : Int) = qi.tdiv (b : Int) := by
          have hn1 : 0 ≤ ki.tdiv (b : Int) := Int.tdiv_nonneg hknn0 (Int.natCast_nonneg b)
          have hn2 : 0 ≤ qi.tdiv (b : Int) := Int.tdiv_nonneg hqnn0 (Int.natCast_nonneg b)
          omega
        have hmodI : ki.tmod (b : Int) = qi.tmod (b : Int) := by
          have hn1 : 0 ≤ ki.tmod (b : Int) := Int.tmod_nonneg _ hknn0
          have hn2 : 0 ≤ qi.tmod (b : Int) := Int.tmod_nonneg _ hqnn0
          omega
        have hhead : ki = qi := by
          have e1 := Int.tdiv_add_tmod ki (b : Int)
          have e2 := Int.tdiv_add_tmod qi (b : Int)
          rw [hdivI, hmodI] at e1
          exact e1.symm.trans e2
        have htailk := fun p hp => hknn p
          (by rw [List.zip_cons_cons]; exact List.mem_cons_of_mem _ hp)
        have htailq := fun p hp => hqnn p
          (by rw [List.zip_cons_cons]; exact List.mem_cons_of_mem _ hp)
        rw [hhead, ih kt qt (by simpa using hk) (by simpa using hq) htailk htailq hdiv2 hmod2]

/-! ## `iblock`: last entry is the full cell size -/

theorem getLastD_of_ne_nil {l : List α} (h : l ≠ []) (d1 d2 : α) :
    l.getLastD d1 = l.getLastD d2 := by
  cases l with
  | nil => exact absurd rfl h
  | cons x xs =>
    rw [List.getLastD_cons, List.getLastD_cons]

theorem iblockGo_ne_nil (b : Nat) (bt : List Nat) (c : Nat) :
    iblockGo c (b :: bt) ≠ [] := by
  show (b * c) :: iblockGo (b * c) bt ≠ []
  exact List.cons_ne_nil _ _

theorem iblockGo_getLastD (bs : List Nat) : ∀ c : Nat, bs ≠ [] →
    (iblockGo c bs).getLastD 0 = c * bs.prod := by
  induction bs with
  | nil => intro c h; exact absurd rfl h
  | cons b bt ih =>
    intro c _
    show ((b * c) :: iblockGo (b * c) bt).getLastD 0 = c * (b :: bt).prod
    cases bt with
    | nil =>
      rw [List.getLastD_cons]
      show (b * c : Nat) = c * (b :: []).prod
      rw [List.prod_cons, List.prod_nil]
      ring
    | cons b2 bt2 =>
      rw [List.getLastD_cons,
        getLastD_of_ne_nil (iblockGo_ne_nil b2 bt2 (b * c)) (b * c) 0,
        ih (b * c) (List.cons_ne_nil _ _)]
      simp only [List.prod_cons]
      ring

theorem prod_pos_of_one_le (bs : List Nat) (h : ∀ b ∈ bs, 1 ≤ b) : 1 ≤ bs.prod := by
  induction bs with
  | nil => simp
  | cons b bt ih =>
    rw [List.prod_cons]
    have hb := h b (List.mem_cons_self _ _)
    have ht := ih (fun x hx => h x (List.mem_cons_of_mem _ hx))
    exact Nat.one_le_iff_ne_zero.mpr (Nat.mul_ne_zero (by omega) (by omega))

/-! ## Block arrays with no init hook: `NULL` slots are preserved -/

theorem blkGet_replicate_none {block : Nat} (j : Nat) :
    blkGet block [some (List.replicate block (none : Option α))] j = none := by
  rw [blkGet_cons]
  by_cases h : j < block
  · rw [if_pos h]
    dsimp only
    rw [get?_replicate, if_pos h]
    rfl
  · rw [if_neg h]
    exact blkGet_nil _

theorem blkModify_get?_of_none {block : Nat} (ini : Option α) (f : Option α → Option α × β) :
    ∀ (chain : List (Option (List (Option α)))) (q : Nat) (r : Nat) (q' : Nat),
    q' ≠ q → chain.get? q' = none →
    (blkModify block ini f chain q r).1.get? q' = none ∨
      (blkModify block ini f chain q r).1.get? q' = some none := by
  intro chain q
  induction q generalizing chain with
  | zero =>
    intro r q' hq hnone
    cases chain with
    | nil =>
      rw [blkModify_zero_eq]
      cases q' with
      | zero => exact absurd rfl hq
      | succ q2 => left; rfl
    | cons b rest =>
      cases q' with
      | zero => exact absurd rfl hq
      | succ q2 =>
        rw [blkModify_zero_eq]
        left
        show rest.get? q2 = none
        exact hnone
  | succ q ih =>
    intro r q' hq hnone
    cases chain with
    | nil =>
      rw [blkModify_succ_nil]
      cases q' with
      | zero => right; rfl
      | succ q2 =>
        show (blkModify block ini f [] q r).1.get? q2 = none ∨
          (blkModify block ini f [] q r).1.get? q2 = some none
        exact ih [] r q2 (fun h => hq (by omega)) rfl
    | cons b rest =>
      cases q' with
      | zero =>
        rw [List.get?_cons_zero] at hnone
        exact absurd hnone (by simp)
      | succ q2 =>
        rw [blkModify_succ_cons]
        show (blkModify block ini f rest q r).1.get? q2 = none ∨
          (blkModify block ini f rest q r).1.get? q2 = some none
        exact ih rest r q2 (fun h => hq (by omega)) hnone

/-- A `NULL` slot distinct from the written position stays `NULL` through
the `ArraySet` chain walk when there is no init hook. -/
theorem blkGet_blkModify_none {block : Nat} (hb : 0 < block)
    (f : Option α → Option α × β) (chain : List (Option (List (Option α))))
    (j j' : Nat) (hne : j' ≠ j)
    (hg : blkGet block chain j' = none) :
    blkGet block (blkModify block none f chain (j / block) (j % block)).1 j' = none := by
  rw [blkGet_eq_slotOf hb] at hg ⊢
  by_cases hq : j' / block = j / block
  · have hr : j' % block ≠ j % block := by
      intro h
      apply hne
      have e1 := Nat.div_add_mod j' block
      have e2 := Nat.div_add_mod j block
      rw [hq, h] at e1
      exact e1.symm.trans e2
    rw [slotOf, hq, blkModify_get?_self]
    dsimp only
    rw [List.get?_set_ne _ _ (fun hx => hr hx.symm)]
    cases hcg : chain.get? (j / block) with
    | none =>
      show ((List.replicate block (none : Option α)).get? (j' % block)).join = none
      rw [get?_replicate]
      by_cases hrb : j' % block < block
      · rw [if_pos hrb]; rfl
      · rw [if_neg hrb]; rfl
    | some b =>
      cases b with
      | none =>
        show ((List.replicate block (none : Option α)).get? (j' % block)).join = none
        rw [get?_replicate]
        by_cases hrb : j' % block < block
        · rw [if_pos hrb]; rfl
        · rw [if_neg hrb]; rfl
      | some l =>
        show ((l.get? (j' % block)).join) = none
        rw [slotOf, hq, hcg] at hg
        exact hg
  · rw [slotOf] at hg ⊢
    cases hcg : chain.get? (j' / block) with
    | some b =>
      rw [blkModify_get?_ne _ _ _ _ _ hq hcg]
      rw [hcg] at hg
      exact hg
    | none =>
      rcases blkModify_get?_of_none none f chain (j / block) (j % block) (j' / block)
          hq hcg with h | h
      · rw [h]
      · rw [h]

theorem arraySet_fst_chain (a : BArr α) (i : Int) (d ini : Option α) :
    (arraySet a i d ini).1.chain =
      (blkModify a.block ini
        (fun s => match d with | some v => (some v, some v) | none => (s, s))
        (if a.dim = 0 then [some (List.replicate a.block ini)] else a.chain)
        (i.toNat / a.block) (i.toNat % a.block)).1 := rfl

theorem arraySet_dim_gt {a : BArr α} {i : Int} (d ini : Option α) (hi : 0 ≤ i) :
    i < ((arraySet a i d ini).1.dim : Int) :=
  arrayModify_dim_gt ini _ hi

theorem arraySet_dim_ge (a : BArr α) (i : Int) (d ini : Option α) :
    a.dim ≤ (arraySet a i d ini).1.dim := by
  rw [arraySet_fst_dim]
  by_cases hc : (a.dim : Int) ≤ i
  · rw [if_pos hc]; omega
  · rw [if_neg hc]

/-- Reading any slot other than the written one through `ArraySet` with no
init hook preserves `NULL` (both in- and out-of-range `NULL`s). -/
theorem arrayGet_arraySet_none {a : BArr α} {i i' : Int} {d : Option α}
    (hb : 0 < a.block) (hi : 0 ≤ i) (hne : i' ≠ i)
    (hbeyond : NoneBeyond a)
    (h : arrayGet a i' = none) :
    arrayGet (arraySet a i d none).1 i' = none := by
  by_cases hi' : i' < 0
  · rw [arrayGet, if_pos hi']
  · push_neg at hi'
    by_cases hrange : ((arraySet a i d none).1.dim : Int) ≤ i'
    · rw [arrayGet, if_neg (by omega), if_pos hrange]
    · push_neg at hrange
      rw [arrayGet, if_neg (by omega), if_neg (by omega), arraySet_fst_block,
        arraySet_fst_chain]
      have hg0 : blkGet a.block
          (if a.dim = 0 then [some (List.replicate a.block (none : Option α))] else a.chain)
          i'.toNat = none := by
        by_cases hd0 : a.dim = 0
        · rw [if_pos hd0]; exact blkGet_replicate_none i'.toNat
        · rw [if_neg hd0]
          by_cases hir : (a.dim : Int) ≤ i'
          · exact hbeyond i'.toNat (by omega)
          · rw [arrayGet, if_neg (by omega), if_neg (by omega)] at h
            exact h
      exact blkGet_blkModify_none hb _ _ i.toNat i'.toNat (by omega) hg0

theorem noneBeyond_arrayInit (block : Nat) : NoneBeyond (arrayInit (α := α) block) :=
  fun _ _ => rfl

theorem noneBeyond_arraySet {a : BArr α} {i : Int} {d : Option α}
    (hb : 0 < a.block) (hi : 0 ≤ i) (hbeyond : NoneBeyond a) :
    NoneBeyond (arraySet a i d none).1 := by
  intro j hj
  have hdim' : i < ((arraySet a i d none).1.dim : Int) := arraySet_dim_gt d none hi
  have hdima : a.dim ≤ (arraySet a i d none).1.dim := arraySet_dim_ge a i d none
  rw [arraySet_fst_block, arraySet_fst_chain]
  have hg0 : blkGet a.block
      (if a.dim = 0 then [some (List.replicate a.block (none : Option α))] else a.chain)
      j = none := by
    by_cases hd0 : a.dim = 0
    · rw [if_pos hd0]; exact blkGet_replicate_none j
    · rw [if_neg hd0]; exact hbeyond j (by omega)
  exact blkGet_blkModify_none hb _ _ i.toNat j (by omega) hg0

/-! ## `findIdx?`: helpers for the super-cell key scan -/

theorem findIdx?_append_none (p : γ → Bool) (x : γ) (l : List γ) :
    ∀ i : Nat, List.findIdx? p l i = none →
      List.findIdx? p (l ++ [x]) i = if p x then some (i + l.length) else none := by
  induction l with
  | nil =>
    intro i _
    rw [List.nil_append, List.findIdx?_cons, List.findIdx?_nil]
    cases hp : p x
    · rw [if_neg (by simp [hp]), if_neg (by simp [hp])]
    · rw [if_pos (by simp [hp]), if_pos (by simp [hp])]
      rfl
  | cons y ys ih =>
    intro i h
    rw [List.findIdx?_cons] at h
    by_cases hy : p y = true
    · rw [if_pos hy] at h
      exact absurd h (by simp)
    · rw [if_neg hy] at h
      show List.findIdx? p (y :: (ys ++ [x])) i = _
      rw [List.findIdx?_cons, if_neg hy, ih (i + 1) h, List.length_cons]
      have ha : i + 1 + ys.length = i + (ys.length + 1) := by omega
      rw [ha]

theorem findIdx?_append_neg (p : γ → Bool) (x : γ) (hx : p x = false) (l : List γ) :
    ∀ i : Nat, List.findIdx? p (l ++ [x]) i = List.findIdx? p l i := by
  induction l with
  | nil =>
    intro i
    rw [List.nil_append, List.findIdx?_cons, if_neg (by simp [hx]),
      List.findIdx?_nil, List.findIdx?_nil]
  | cons y ys ih =>
    intro i
    show List.findIdx? p (y :: (ys ++ [x])) i = _
    rw [List.findIdx?_cons, List.findIdx?_cons, ih (i + 1)]

theorem findIdx?_eq_get (l : List γ) : ∀ (p : γ → Bool) (i j : Nat),
    List.findIdx? p l i = some j →
    i ≤ j ∧ ∃ y, l.get? (j - i) = some y ∧ p y = true := by
  induction l with
  | nil =>
    intro p i j h
    rw [List.findIdx?_nil] at h
    exact absurd h (by simp)
  | cons y ys ih =>
    intro p i j h
    rw [List.findIdx?_cons] at h
    by_cases hy : p y = true
    · rw [if_pos hy] at h
      injection h with h
      refine ⟨by omega, y, ?_, hy⟩
      rw [show j - i = 0 from by omega]
      rfl
    · rw [if_neg hy] at h
      obtain ⟨hij, z, hz, hpz⟩ := ih p (i + 1) j h
      refine ⟨by omega, z, ?_, hpz⟩
      have hs : j - i = (j - (i + 1)) + 1 := by omega
      rw [hs, List.get?_cons_succ]
      exact hz

theorem findIdx?_lt_length (l : List γ) (p : γ → Bool) (j : Nat)
    (h : List.findIdx? p l 0 = some j) : j < l.length := by
  obtain ⟨_, y, hy, _⟩ := findIdx?_eq_get l p 0 j h
  rw [Nat.sub_zero] at hy
  by_contra hc
  rw [List.get?_eq_none.mpr (by omega)] at hy
  exact absurd hy (by simp)

/-! ## `MMultiSet`: unchanged components -/

theorem MMultiSet_fst (g : Glob) (ma : MM V) (k : List Int) (d ini : Option V) :
    (MMultiSet g ma k d ini).1 = g := by
  unfold MMultiSet
  dsimp only
  split
  · rfl
  · split <;> rfl

theorem MMultiSet_ndim (g : Glob) (ma : MM V) (k : List Int) (d ini : Option V) :
    (MMultiSet g ma k d ini).2.1.ndim = ma.ndim := by
  unfold MMultiSet
  dsimp only
  split
  · rfl
  · split <;> rfl

theorem MMultiSet_block (g : Glob) (ma : MM V) (k : List Int) (d ini : Option V) :
    (MMultiSet g ma k d ini).2.1.block = ma.block := by
  unfold MMultiSet
  dsimp only
  split
  · rfl
  · split <;> rfl

theorem MMultiSet_iblock (g : Glob) (ma : MM V) (k : List Int) (d ini : Option V) :
    (MMultiSet g ma k d ini).2.1.iblock = ma.iblock := by
  unfold MMultiSet
  dsimp only
  split
  · rfl
  · split <;> rfl

theorem MMultiSet_hmask (g : Glob) (ma : MM V) (k : List Int) (d ini : Option V) :
    (MMultiSet g ma k d ini).2.1.hmask = ma.hmask := by
  unfold MMultiSet
  dsimp only
  split
  · rfl
  · split <;> rfl

theorem MMultiSet_totalsize (g : Glob) (ma : MM V) (k : List Int) (d ini : Option V) :
    (MMultiSet g ma k d ini).2.1.totalsize = ma.totalsize := by
  unfold MMultiSet
  dsimp only
  split
  · rfl
  · split <;> rfl

theorem MMultiSet_maxsize (g : Glob) (ma : MM V) (k : List Int) (d ini : Option V) :
    (MMultiSet g ma k d ini).2.1.maxsize = ma.maxsize := by
  unfold MMultiSet
  dsimp only
  split
  · rfl
  · split <;> rfl

/-! ## Consequences of the `MMulti` structural invariant -/

theorem MInv_block_ne_nil {V : Type} {ma : MM V} (h : MInv ma) : ma.block ≠ [] := by
  obtain ⟨hnd, hlen, _⟩ := h
  intro hc
  rw [hc] at hlen
  simp at hlen
  omega

theorem MInv_cell_pos {V : Type} {ma : MM V} (h : MInv ma) : 0 < ma.iblock.getLastD 0 := by
  have hbne := MInv_block_ne_nil h
  obtain ⟨hnd, hlen, hb, hib, _⟩ := h
  rw [hib, iblockGo_getLastD ma.block 1 hbne, Nat.one_mul]
  exact prod_pos_of_one_le ma.block (fun b hb2 => (hb b hb2).1)

theorem zip_map_zip (bs : List Nat) : ∀ (k : List Int) (f : Int × Nat → Nat),
    k.length = bs.length →
    ((k.zip bs).map f).zip bs = (k.zip bs).map (fun p => (f p, p.2)) := by
  induction bs with
  | nil =>
    intro k f hlen
    cases k with
    | nil => rfl
    | cons => simp at hlen
  | cons b bt ih =>
    intro k f hlen
    cases k with
    | nil => simp at hlen
    | cons ki kt =>
      rw [List.zip_cons_cons, List.map_cons, List.map_cons, List.zip_cons_cons,
        ih kt f (by simpa using hlen)]

/-- The residual offset of a well-formed key is inside one cell. -/
theorem aidx_lt_cell {V : Type} {ma : MM V} (hinv : MInv ma) {k : List Int}
    (hwf : wfMKey ma.block ma.ndim k) :
    aidxOf (mIndex ma.block k).2.2.2 ma.iblock < ma.iblock.getLastD 0 := by
  have hbne := MInv_block_ne_nil hinv
  obtain ⟨hnd, hlen, hb, hib, _⟩ := hinv
  obtain ⟨hklen, hkp⟩ := hwf
  have hridx : (mIndex ma.block k).2.2.2 =
      (k.zip ma.block).map (fun p => (p.1.tmod (p.2 : Int)).toNat) := by
    apply mIndexGo_ridx
    intro p hp
    obtain ⟨a, b2⟩ := p
    obtain ⟨_, hbm⟩ := List.of_mem_zip hp
    exact ⟨(hkp (a, b2) hp).1, (hb b2 hbm).1, (hb b2 hbm).2⟩
  have hlen2 : ((k.zip ma.block).map (fun p => (p.1.tmod (p.2 : Int)).toNat)).length =
      ma.block.length := by
    rw [List.length_map, List.length_zip]
    omega
  rw [hib, hridx, aidxOf_eq_radix ma.block _ hlen2,
    iblockGo_getLastD ma.block 1 hbne, Nat.one_mul]
  apply radixVal_lt_prod ma.block _ hlen2
  rw [zip_map_zip ma.block k _ (by omega)]
  intro p' hp'
  obtain ⟨p, hp, hfp⟩ := List.mem_map.mp hp'
  obtain ⟨a, b2⟩ := p
  rw [← hfp]
  obtain ⟨_, hbm⟩ := List.of_mem_zip hp
  exact tmod_toNat_lt (hkp (a, b2) hp).1 (hb b2 hbm).1

/-! ## `MMultiSet`/`MMultiGet`: per-branch equations -/

theorem MMultiSet_isf_eq {V : Type} (g : Glob) (ma : MM V) (k : List Int) (d ini : Option V)
    (hisf : (mIndex ma.block k).1 = true) :
    MMultiSet g ma k d ini =
      (g, { ma with arr := (arraySet ma.arr
          ((aidxOf (mIndex ma.block k).2.2.2 ma.iblock : Nat) : Int) d ini).1 },
        (arraySet ma.arr
          ((aidxOf (mIndex ma.block k).2.2.2 ma.iblock : Nat) : Int) d ini).2) := by
  unfold MMultiSet
  dsimp only
  rw [if_pos hisf]

theorem MMultiSet_found_eq {V : Type} (g : Glob) (ma : MM V) (k : List Int) (d ini : Option V)
    (j : Nat)
    (hisf : (mIndex ma.block k).1 = false)
    (hfind : (ma.ia (mmBucket ma k)).findIdx? (fun s => s == (mIndex ma.block k).2.2.1)
      = some j) :
    MMultiSet g ma k d ini =
      (g, { ma with da := fun h2 => if h2 = mmBucket ma k then
              (arraySet (ma.da (mmBucket ma k))
                ((aidxOf (mIndex ma.block k).2.2.2 ma.iblock
                  + j * ma.iblock.getLastD 0 : Nat) : Int) d ini).1
            else ma.da h2 },
        (arraySet (ma.da (mmBucket ma k))
          ((aidxOf (mIndex ma.block k).2.2.2 ma.iblock
            + j * ma.iblock.getLastD 0 : Nat) : Int) d ini).2) := by
  unfold mmBucket at hfind
  unfold MMultiSet
  dsimp only
  rw [if_neg (by rw [hisf]; exact Bool.false_ne_true), hfind]
  rfl

theorem MMultiSet_new_eq {V : Type} (g : Glob) (ma : MM V) (k : List Int) (d ini : Option V)
    (hisf : (mIndex ma.block k).1 = false)
    (hfind : (ma.ia (mmBucket ma k)).findIdx? (fun s => s == (mIndex ma.block k).2.2.1)
      = none) :
    MMultiSet g ma k d ini =
      (g, { ma with
          ia := fun h2 => if h2 = mmBucket ma k then
              ma.ia h2 ++ [(mIndex ma.block k).2.2.1] else ma.ia h2,
          da := fun h2 => if h2 = mmBucket ma k then
              (arraySet (ma.da (mmBucket ma k))
                ((aidxOf (mIndex ma.block k).2.2.2 ma.iblock
                  + (ma.ia (mmBucket ma k)).length * ma.iblock.getLastD 0 : Nat) : Int)
                d ini).1
            else ma.da h2 },
        (arraySet (ma.da (mmBucket ma k))
          ((aidxOf (mIndex ma.block k).2.2.2 ma.iblock
            + (ma.ia (mmBucket ma k)).length * ma.iblock.getLastD 0 : Nat) : Int)
          d ini).2) := by
  unfold mmBucket at hfind
  unfold MMultiSet
  dsimp only
  rw [if_neg (by rw [hisf]; exact Bool.false_ne_true), hfind]
  rfl

theorem MMultiGet_isf_eq {V : Type} (ma : MM V) (k : List Int)
    (hisf : (mIndex ma.block k).1 = true) :
    MMultiGet ma k =
      arrayGet ma.arr ((aidxOf (mIndex ma.block k).2.2.2 ma.iblock : Nat) : Int) := by
  unfold MMultiGet
  dsimp only
  rw [if_pos hisf]

theorem MMultiGet_hashed_eq {V : Type} (ma : MM V) (k : List Int)
    (hisf : (mIndex ma.block k).1 = false) :
    MMultiGet ma k =
      match (ma.ia (mmBucket ma k)).findIdx?
          (fun s => s == (mIndex ma.block k).2.2.1) with
      | some j => arrayGet (ma.da (mmBucket ma k))
          ((aidxOf (mIndex ma.block k).2.2.2 ma.iblock
            + j * ma.iblock.getLastD 0 : Nat) : Int)
      | none => none := by
  unfold MMultiGet mmBucket
  dsimp only
  rw [if_neg (by rw [hisf]; exact Bool.false_ne_true)]

theorem MMultiGet_upd_isf {V : Type} (ma : MM V) (A : BArr V) (IA : Nat → List (List Nat))
    (D : Nat → BArr V) (k : List Int) (hisf : (mIndex ma.block k).1 = true) :
    MMultiGet { ma with arr := A, ia := IA, da := D } k =
      arrayGet A ((aidxOf (mIndex ma.block k).2.2.2 ma.iblock : Nat) : Int) := by
  unfold MMultiGet
  dsimp only
  rw [if_pos hisf]

theorem MMultiGet_upd_hashed {V : Type} (ma : MM V) (A : BArr V) (IA : Nat → List (List Nat))
    (D : Nat → BArr V) (k : List Int) (hisf : (mIndex ma.block k).1 = false) :
    MMultiGet { ma with arr := A, ia := IA, da := D } k =
      match (IA (mmBucket ma k)).findIdx?
          (fun s => s == (mIndex ma.block k).2.2.1) with
      | some j => arrayGet (D (mmBucket ma k))
          ((aidxOf (mIndex ma.block k).2.2.2 ma.iblock
            + j * ma.iblock.getLastD 0 : Nat) : Int)
      | none => none := by
  unfold MMultiGet mmBucket
  dsimp only
  rw [if_neg (by rw [hisf]; exact Bool.false_ne_true)]

theorem mIndex_sidx_eq (bs : List Nat) (ndim : Nat) (k : List Int)
    (hwf : wfMKey bs ndim k) :
    (mIndex bs k).2.2.1 = (k.zip bs).map (fun p => (p.1.tdiv (p.2 : Int)).toNat) := by
  apply mIndexGo_sidx
  intro p hp
  exact ⟨(hwf.2 p hp).1, (hwf.2 p hp).2⟩

theorem mIndex_ridx_eq (bs : List Nat) (ndim : Nat) (k : List Int)
    (hb : ∀ b ∈ bs, 1 ≤ b ∧ b < 65536) (hwf : wfMKey bs ndim k) :
    (mIndex bs k).2.2.2 = (k.zip bs).map (fun p => (p.1.tmod (p.2 : Int)).toNat) := by
  apply mIndexGo_ridx
  intro p hp
  obtain ⟨a, b2⟩ := p
  exact ⟨(hwf.2 (a, b2) hp).1, (hb b2 (List.of_mem_zip hp).2).1,
    (hb b2 (List.of_mem_zip hp).2).2⟩

theorem ridx_map_bound (bs : List Nat) (k : List Int)
    (hlenk : k.length = bs.length)
    (hb : ∀ b ∈ bs, 1 ≤ b) (hkp : ∀ p ∈ k.zip bs, 0 ≤ p.1) :
    ∀ p' ∈ ((k.zip bs).map (fun p => (p.1.tmod (p.2 : Int)).toNat)).zip bs, p'.1 < p'.2 := by
  rw [zip_map_zip bs k _ hlenk]
  intro p' hp'
  obtain ⟨p, hp, hfp⟩ := List.mem_map.mp hp'
  obtain ⟨a, b2⟩ := p
  rw [← hfp]
  exact tmod_toNat_lt (hkp (a, b2) hp) (hb b2 (List.of_mem_zip hp).2)

/-- Two distinct well-formed keys with the same coarse (`sidx`) vector have
distinct residual offsets. -/
theorem aidx_ne_of_ne {V : Type} {ma : MM V} (hinv : MInv ma) {k q : List Int}
    (hwfk : wfMKey ma.block ma.ndim k) (hwfq : wfMKey ma.block ma.ndim q) (hne : q ≠ k)
    (hs : (mIndex ma.block k).2.2.1 = (mIndex ma.block q).2.2.1) :
    aidxOf (mIndex ma.block k).2.2.2 ma.iblock ≠
      aidxOf (mIndex ma.block q).2.2.2 ma.iblock := by
  intro hcontra
  have hbne := MInv_block_ne_nil hinv
  obtain ⟨hnd, hlen, hb, hib, _⟩ := hinv
  obtain ⟨hklen, hkp⟩ := hwfk
  obtain ⟨hqlen, hqp⟩ := hwfq
  have hlenk : ((k.zip ma.block).map (fun p => (p.1.tmod (p.2 : Int)).toNat)).length =
      ma.block.length := by
    rw [List.length_map, List.length_zip]; omega
  have hlenq : ((q.zip ma.block).map (fun p => (p.1.tmod (p.2 : Int)).toNat)).length =
      ma.block.length := by
    rw [List.length_map, List.length_zip]; omega
  rw [hib, mIndex_ridx_eq ma.block ma.ndim k hb ⟨hklen, hkp⟩,
    mIndex_ridx_eq ma.block ma.ndim q hb ⟨hqlen, hqp⟩,
    aidxOf_eq_radix ma.block _ hlenk, aidxOf_eq_radix ma.block _ hlenq] at hcontra
  have hrs := radixVal_inj ma.block _ _ hlenk hlenq
    (ridx_map_bound ma.block k (by omega) (fun b hb2 => (hb b hb2).1)
      (fun p hp => (hkp p hp).1))
    (ridx_map_bound ma.block q (by omega) (fun b hb2 => (hb b hb2).1)
      (fun p hp => (hqp p hp).1))
    hcontra
  have hdiv : (q.zip ma.block).map (fun p => (p.1.tdiv (p.2 : Int)).toNat) =
      (k.zip ma.block).map (fun p => (p.1.tdiv (p.2 : Int)).toNat) := by
    rw [← mIndex_sidx_eq ma.block ma.ndim q ⟨hqlen, hqp⟩,
      ← mIndex_sidx_eq ma.block ma.ndim k ⟨hklen, hkp⟩]
    exact hs.symm
  exact hne (key_eq_of_div_mod ma.block q k (by omega) (by omega)
    (fun p hp => (hqp p hp).1) (fun p hp => (hkp p hp).1) hdiv hrs.symm)

theorem arrayGet_none_of_dim_le {a : BArr α} {i : Int} (h : (a.dim : Int) ≤ i) :
    arrayGet a i = none := by
  rw [arrayGet]
  by_cases h0 : i < 0
  · rw [if_pos h0]
  · rw [if_neg h0, if_pos h]

/-- Reading back the key just written by `MMultiSet` yields the new value
(on any state satisfying the structural invariant). -/
theorem MMultiGet_MMultiSet_self {V : Type} (g : Glob) (ma : MM V) (k : List Int) (v : V)
    (ini : Option V) (hinv : MInv ma) (hwf : wfMKey ma.block ma.ndim k) :
    MMultiGet (MMultiSet g ma k (some v) ini).2.1 k = some v := by
  have hcell : 0 < ma.iblock.getLastD 0 := MInv_cell_pos hinv
  obtain ⟨hnd, hlen, hb, hib, hablock, hawf, hda⟩ := hinv
  cases hisf : (mIndex ma.block k).1 with
  | true =>
    rw [MMultiSet_isf_eq g ma k (some v) ini hisf]
    dsimp only
    rw [MMultiGet_upd_isf ma _ _ _ k hisf]
    exact arrayGet_arraySet_self (by rw [hablock]; exact hcell) (Int.natCast_nonneg _) hawf
  | false =>
    cases hfind : (ma.ia (mmBucket ma k)).findIdx?
        (fun s => s == (mIndex ma.block k).2.2.1) with
    | some j =>
      rw [MMultiSet_found_eq g ma k (some v) ini j hisf hfind]
      dsimp only
      rw [MMultiGet_upd_hashed ma _ _ _ k hisf, hfind]
      dsimp only
      rw [if_pos rfl]
      exact arrayGet_arraySet_self
        (by rw [(hda (mmBucket ma k)).1]; exact hcell)
        (Int.natCast_nonneg _) (hda (mmBucket ma k)).2
    | none =>
      rw [MMultiSet_new_eq g ma k (some v) ini hisf hfind]
      dsimp only
      rw [MMultiGet_upd_hashed ma _ _ _ k hisf]
      rw [if_pos rfl, findIdx?_append_none _ _ _ 0 hfind,
        if_pos (beq_self_eq_true ((mIndex ma.block k).2.2.1))]
      dsimp only
      rw [if_pos rfl, Nat.zero_add]
      exact arrayGet_arraySet_self
        (by rw [(hda (mmBucket ma k)).1]; exact hcell)
        (Int.natCast_nonneg _) (hda (mmBucket ma k)).2

/-- `MMultiSet` with no init hook leaves the value read at every other
well-formed key unchanged. -/
theorem MMultiGet_MMultiSet_frame {V : Type} (g : Glob) (ma : MM V) (k q : List Int)
    (d : Option V) (hfull : MFull ma) (hwfk : wfMKey ma.block ma.ndim k)
    (hwfq : wfMKey ma.block ma.ndim q) (hne : q ≠ k) :
    MMultiGet (MMultiSet g ma k d none).2.1 q = MMultiGet ma q := by
  obtain ⟨hinv, hnbA, hdimA, hnbD, hdimD⟩ := hfull
  have hinv' := hinv
  have hcell : 0 < ma.iblock.getLastD 0 := MInv_cell_pos hinv
  have haidxk := aidx_lt_cell hinv hwfk
  have haidxq := aidx_lt_cell hinv hwfq
  obtain ⟨hnd, hlen, hb, hib, hablock, hawf, hda⟩ := hinv
  cases hisfk : (mIndex ma.block k).1 with
  | true =>
    rw [MMultiSet_isf_eq g ma k d none hisfk]
    dsimp only
    cases hisfq : (mIndex ma.block q).1 with
    | false =>
      rw [MMultiGet_upd_hashed ma _ _ _ q hisfq, MMultiGet_hashed_eq ma q hisfq]
    | true =>
      rw [MMultiGet_upd_isf ma _ _ _ q hisfq, MMultiGet_isf_eq ma q hisfq]
      have hsk := map_tdiv_inrange ma.block k
        (fun p hp => ⟨(hwfk.2 p hp).1, (mIndexGo_isf _).mp hisfk p hp⟩)
        (hwfk.1.trans hlen.symm)
      have hsq := map_tdiv_inrange ma.block q
        (fun p hp => ⟨(hwfq.2 p hp).1, (mIndexGo_isf _).mp hisfq p hp⟩)
        (hwfq.1.trans hlen.symm)
      have hs : (mIndex ma.block k).2.2.1 = (mIndex ma.block q).2.2.1 := by
        rw [mIndex_sidx_eq ma.block ma.ndim k hwfk,
          mIndex_sidx_eq ma.block ma.ndim q hwfq, hsk, hsq]
      have hax := aidx_ne_of_ne hinv' hwfk hwfq hne hs
      have hbA : 0 < ma.arr.block := by rw [hablock]; exact hcell
      have hneI : ((aidxOf (mIndex ma.block q).2.2.2 ma.iblock : Nat) : Int) ≠
          ((aidxOf (mIndex ma.block k).2.2.2 ma.iblock : Nat) : Int) := by
        intro hc
        exact hax (by exact_mod_cast hc.symm)
      cases hprev : arrayGet ma.arr
          ((aidxOf (mIndex ma.block q).2.2.2 ma.iblock : Nat) : Int) with
      | none =>
        rw [arrayGet_arraySet_none hbA (Int.natCast_nonneg _) hneI hnbA hprev]
      | some w =>
        rw [arrayGet_arraySet_frame hbA (Int.natCast_nonneg _) hneI hprev]
  | false =>
    cases hfind : (ma.ia (mmBucket ma k)).findIdx?
        (fun s => s == (mIndex ma.block k).2.2.1) with
    | some j =>
      rw [MMultiSet_found_eq g ma k d none j hisfk hfind]
      dsimp only
      cases hisfq : (mIndex ma.block q).1 with
      | true =>
        rw [MMultiGet_upd_isf ma _ _ _ q hisfq, MMultiGet_isf_eq ma q hisfq]
      | false =>
        rw [MMultiGet_upd_hashed ma _ _ _ q hisfq, MMultiGet_hashed_eq ma q hisfq]
        cases hfq : (ma.ia (mmBucket ma q)).findIdx?
            (fun s => s == (mIndex ma.block q).2.2.1) with
        | none => rfl
        | some j2 =>
          dsimp only
          by_cases hH : mmBucket ma q = mmBucket ma k
          · rw [hH, if_pos rfl]
            rw [hH] at hfq
            have hbD : 0 < (ma.da (mmBucket ma k)).block := by
              rw [(hda (mmBucket ma k)).1]; exact hcell
            by_cases hj : j2 = j
            · obtain ⟨_, y1, hy1, hp1⟩ := findIdx?_eq_get _ _ 0 j hfind
              obtain ⟨_, y2, hy2, hp2⟩ := findIdx?_eq_get _ _ 0 j2 hfq
              rw [Nat.sub_zero] at hy1 hy2
              rw [hj] at hy2
              have hy12 : y1 = y2 := by
                rw [hy1] at hy2
                injection hy2 with hh
              have hs : (mIndex ma.block k).2.2.1 = (mIndex ma.block q).2.2.1 := by
                have e1 := eq_of_beq hp1
                have e2 := eq_of_beq hp2
                rw [← e1, hy12, e2]
              have hax := aidx_ne_of_ne hinv' hwfk hwfq hne hs
              have hidx : aidxOf (mIndex ma.block q).2.2.2 ma.iblock
                    + j2 * ma.iblock.getLastD 0 ≠
                  aidxOf (mIndex ma.block k).2.2.2 ma.iblock
                    + j * ma.iblock.getLastD 0 := by
                rw [hj]
                intro hcontra
                have e1 := Nat.add_mul_mod_self_right
                  (aidxOf (mIndex ma.block q).2.2.2 ma.iblock) j (ma.iblock.getLastD 0)
                have e2 := Nat.add_mul_mod_self_right
                  (aidxOf (mIndex ma.block k).2.2.2 ma.iblock) j (ma.iblock.getLastD 0)
                rw [hcontra, e2, Nat.mod_eq_of_lt haidxq, Nat.mod_eq_of_lt haidxk] at e1
                exact hax e1
              have hneI : ((aidxOf (mIndex ma.block q).2.2.2 ma.iblock
                    + j2 * ma.iblock.getLastD 0 : Nat) : Int) ≠
                  ((aidxOf (mIndex ma.block k).2.2.2 ma.iblock
                    + j * ma.iblock.getLastD 0 : Nat) : Int) := by
                intro hc
                exact hidx (by exact_mod_cast hc)
              cases hprev : arrayGet (ma.da (mmBucket ma k))
                  ((aidxOf (mIndex ma.block q).2.2.2 ma.iblock
                    + j2 * ma.iblock.getLastD 0 : Nat) : Int) with
              | none =>
                rw [arrayGet_arraySet_none hbD (Int.natCast_nonneg _) hneI
                  (hnbD (mmBucket ma k)) hprev]
              | some w =>
                rw [arrayGet_arraySet_frame hbD (Int.natCast_nonneg _) hneI hprev]
            · have hidx : aidxOf (mIndex ma.block q).2.2.2 ma.iblock
                    + j2 * ma.iblock.getLastD 0 ≠
                  aidxOf (mIndex ma.block k).2.2.2 ma.iblock
                    + j * ma.iblock.getLastD 0 := by
                intro hcontra
                have d1 : (aidxOf (mIndex ma.block q).2.2.2 ma.iblock
                    + j2 * ma.iblock.getLastD 0) / ma.iblock.getLastD 0 = j2 := by
                  rw [Nat.add_mul_div_right _ _ hcell, Nat.div_eq_of_lt haidxq]
                  omega
                have d2 : (aidxOf (mIndex ma.block k).2.2.2 ma.iblock
                    + j * ma.iblock.getLastD 0) / ma.iblock.getLastD 0 = j := by
                  rw [Nat.add_mul_div_right _ _ hcell, Nat.div_eq_of_lt haidxk]
                  omega
                rw [hcontra, d2] at d1
                exact hj d1.symm
              have hneI : ((aidxOf (mIndex ma.block q).2.2.2 ma.iblock
                    + j2 * ma.iblock.getLastD 0 : Nat) : Int) ≠
                  ((aidxOf (mIndex ma.block k).2.2.2 ma.iblock
                    + j * ma.iblock.getLastD 0 : Nat) : Int) := by
                intro hc
                exact hidx (by exact_mod_cast hc)
              cases hprev : arrayGet (ma.da (mmBucket ma k))
                  ((aidxOf (mIndex ma.block q).2.2.2 ma.iblock
                    + j2 * ma.iblock.getLastD 0 : Nat) : Int) with
              | none =>
                rw [arrayGet_arraySet_none hbD (Int.natCast_nonneg _) hneI
                  (hnbD (mmBucket ma k)) hprev]
              | some w =>
                rw [arrayGet_arraySet_frame hbD (Int.natCast_nonneg _) hneI hprev]
          · rw [if_neg hH]
    | none =>
      rw [MMultiSet_new_eq g ma k d none hisfk hfind]
      dsimp only
      cases hisfq : (mIndex ma.block q).1 with
      | true =>
        rw [MMultiGet_upd_isf ma _ _ _ q hisfq, MMultiGet_isf_eq ma q hisfq]
      | false =>
        rw [MMultiGet_upd_hashed ma _ _ _ q hisfq, MMultiGet_hashed_eq ma q hisfq]
        by_cases hH : mmBucket ma q = mmBucket ma k
        · rw [hH, if_pos rfl]
          by_cases hsq : (mIndex ma.block q).2.2.1 = (mIndex ma.block k).2.2.1
          · have hfq0 : (ma.ia (mmBucket ma k)).findIdx?
                (fun s => s == (mIndex ma.block q).2.2.1) = none := by
              rw [hsq]
              exact hfind
            rw [findIdx?_append_none _ _ _ 0 hfq0,
              if_pos (show (((mIndex ma.block k).2.2.1 == (mIndex ma.block q).2.2.1) = true)
                from by rw [hsq]; exact beq_self_eq_true _)]
            dsimp only
            rw [if_pos rfl, Nat.zero_add, hfq0]
            have hs : (mIndex ma.block k).2.2.1 = (mIndex ma.block q).2.2.1 := hsq.symm
            have hax := aidx_ne_of_ne hinv' hwfk hwfq hne hs
            have hbD : 0 < (ma.da (mmBucket ma k)).block := by
              rw [(hda (mmBucket ma k)).1]; exact hcell
            have hidx : aidxOf (mIndex ma.block q).2.2.2 ma.iblock
                  + (ma.ia (mmBucket ma k)).length * ma.iblock.getLastD 0 ≠
                aidxOf (mIndex ma.block k).2.2.2 ma.iblock
                  + (ma.ia (mmBucket ma k)).length * ma.iblock.getLastD 0 := by
              intro hcontra
              exact hax (by omega)
            have hprev : arrayGet (ma.da (mmBucket ma k))
                ((aidxOf (mIndex ma.block q).2.2.2 ma.iblock
                  + (ma.ia (mmBucket ma k)).length * ma.iblock.getLastD 0 : Nat) : Int)
                = none := by
              apply arrayGet_none_of_dim_le
              have h1 : (ma.da (mmBucket ma k)).dim ≤
                  aidxOf (mIndex ma.block q).2.2.2 ma.iblock
                    + (ma.ia (mmBucket ma k)).length * ma.iblock.getLastD 0 := by
                have h2 := hdimD (mmBucket ma k)
                omega
              exact_mod_cast h1
            rw [arrayGet_arraySet_none hbD (Int.natCast_nonneg _)
              (by intro hc; exact hidx (by exact_mod_cast hc))
              (hnbD (mmBucket ma k)) hprev]
          · have hpx : (((mIndex ma.block k).2.2.1 == (mIndex ma.block q).2.2.1) = false) := by
              rw [beq_eq_false_iff_ne]
              intro hc
              exact hsq hc.symm
            rw [findIdx?_append_neg (fun s => s == (mIndex ma.block q).2.2.1)
              ((mIndex ma.block k).2.2.1) hpx _ 0]
            cases hfq : (ma.ia (mmBucket ma k)).findIdx?
                (fun s => s == (mIndex ma.block q).2.2.1) with
            | none => rfl
            | some j2 =>
              dsimp only
              rw [if_pos rfl]
              have hbD : 0 < (ma.da (mmBucket ma k)).block := by
                rw [(hda (mmBucket ma k)).1]; exact hcell
              have hj2 := findIdx?_lt_length _ _ _ hfq
              have hidx : aidxOf (mIndex ma.block q).2.2.2 ma.iblock
                    + j2 * ma.iblock.getLastD 0 ≠
                  aidxOf (mIndex ma.block k).2.2.2 ma.iblock
                    + (ma.ia (mmBucket ma k)).length * ma.iblock.getLastD 0 := by
                intro hcontra
                have d1 : (aidxOf (mIndex ma.block q).2.2.2 ma.iblock
                    + j2 * ma.iblock.getLastD 0) / ma.iblock.getLastD 0 = j2 := by
                  rw [Nat.add_mul_div_right _ _ hcell, Nat.div_eq_of_lt haidxq]
                  omega
                have d2 : (aidxOf (mIndex ma.block k).2.2.2 ma.iblock
                    + (ma.ia (mmBucket ma k)).length * ma.iblock.getLastD 0)
                      / ma.iblock.getLastD 0 = (ma.ia (mmBucket ma k)).length := by
                  rw [Nat.add_mul_div_right _ _ hcell, Nat.div_eq_of_lt haidxk]
                  omega
                rw [hcontra, d2] at d1
                omega
              have hneI : ((aidxOf (mIndex ma.block q).2.2.2 ma.iblock
                    + j2 * ma.iblock.getLastD 0 : Nat) : Int) ≠
                  ((aidxOf (mIndex ma.block k).2.2.2 ma.iblock
                    + (ma.ia (mmBucket ma k)).length * ma.iblock.getLastD 0 : Nat) : Int) := by
                intro hc
                exact hidx (by exact_mod_cast hc)
              cases hprev : arrayGet (ma.da (mmBucket ma k))
                  ((aidxOf (mIndex ma.block q).2.2.2 ma.iblock
                    + j2 * ma.iblock.getLastD 0 : Nat) : Int) with
              | none =>
                rw [arrayGet_arraySet_none hbD (Int.natCast_nonneg _) hneI
                  (hnbD (mmBucket ma k)) hprev]
              | some w =>
                rw [arrayGet_arraySet_frame hbD (Int.natCast_nonneg _) hneI hprev]
        · rw [if_neg hH]
          cases hfq : (ma.ia (mmBucket ma q)).findIdx?
              (fun s => s == (mIndex ma.block q).2.2.1) with
          | none => rfl
          | some j2 =>
            dsimp only
            rw [if_neg hH]

/-- `MMultiSet` with no init hook preserves the full invariant. -/
theorem MFull_MMultiSet {V : Type} (g : Glob) (ma : MM V) (k : List Int) (d : Option V)
    (hfull : MFull ma) (hwf : wfMKey ma.block ma.ndim k) :
    MFull (MMultiSet g ma k d none).2.1 := by
  obtain ⟨hinv, hnbA, hdimA, hnbD, hdimD⟩ := hfull
  have hinv' := hinv
  have hcell : 0 < ma.iblock.getLastD 0 := MInv_cell_pos hinv
  have haidx := aidx_lt_cell hinv hwf
  obtain ⟨hnd, hlen, hb, hib, hablock, hawf, hda⟩ := hinv
  cases hisf : (mIndex ma.block k).1 with
  | true =>
    rw [MMultiSet_isf_eq g ma k d none hisf]
    dsimp only
    refine ⟨⟨hnd, hlen, hb, hib, ?_, ?_, fun h => hda h⟩, ?_, ?_,
      fun h => hnbD h, fun h => hdimD h⟩
    · dsimp only
      rw [arraySet_fst_block]
      exact hablock
    · exact WFchain_arraySet hawf
    · exact noneBeyond_arraySet (by rw [hablock]; exact hcell) (Int.natCast_nonneg _) hnbA
    · dsimp only
      rw [arraySet_fst_dim]
      by_cases hcase : (ma.arr.dim : Int) ≤
          ((aidxOf (mIndex ma.block k).2.2.2 ma.iblock : Nat) : Int)
      · rw [if_pos hcase]
        omega
      · rw [if_neg hcase]
        exact hdimA
  | false =>
    cases hfind : (ma.ia (mmBucket ma k)).findIdx?
        (fun s => s == (mIndex ma.block k).2.2.1) with
    | some j =>
      rw [MMultiSet_found_eq g ma k d none j hisf hfind]
      dsimp only
      have hjlen : j < (ma.ia (mmBucket ma k)).length := findIdx?_lt_length _ _ _ hfind
      refine ⟨⟨hnd, hlen, hb, hib, hablock, hawf, ?_⟩, hnbA, hdimA, ?_, ?_⟩
      · intro h
        dsimp only
        by_cases hh : h = mmBucket ma k
        · rw [if_pos hh]
          exact ⟨by rw [arraySet_fst_block]; exact (hda (mmBucket ma k)).1,
            WFchain_arraySet (hda (mmBucket ma k)).2⟩
        · rw [if_neg hh]
          exact hda h
      · intro h
        dsimp only
        by_cases hh : h = mmBucket ma k
        · rw [if_pos hh]
          exact noneBeyond_arraySet (by rw [(hda (mmBucket ma k)).1]; exact hcell)
            (Int.natCast_nonneg _) (hnbD (mmBucket ma k))
        · rw [if_neg hh]
          exact hnbD h
      · intro h
        dsimp only
        by_cases hh : h = mmBucket ma k
        · rw [if_pos hh, hh]
          rw [arraySet_fst_dim]
          by_cases hcase : ((ma.da (mmBucket ma k)).dim : Int) ≤
              ((aidxOf (mIndex ma.block k).2.2.2 ma.iblock
                + j * ma.iblock.getLastD 0 : Nat) : Int)
          · rw [if_pos hcase]
            have h1 : aidxOf (mIndex ma.block k).2.2.2 ma.iblock
                + j * ma.iblock.getLastD 0 + 1 ≤ (j + 1) * ma.iblock.getLastD 0 := by
              rw [Nat.succ_mul]
              omega
            have h2 : (j + 1) * ma.iblock.getLastD 0 ≤
                (ma.ia (mmBucket ma k)).length * ma.iblock.getLastD 0 :=
              Nat.mul_le_mul_right _ (by omega)
            omega
          · rw [if_neg hcase]
            exact hdimD (mmBucket ma k)
        · rw [if_neg hh]
          exact hdimD h
    | none =>
      rw [MMultiSet_new_eq g ma k d none hisf hfind]
      dsimp only
      refine ⟨⟨hnd, hlen, hb, hib, hablock, hawf, ?_⟩, hnbA, hdimA, ?_, ?_⟩
      · intro h
        dsimp only
        by_cases hh : h = mmBucket ma k
        · rw [if_pos hh]
          exact ⟨by rw [arraySet_fst_block]; exact (hda (mmBucket ma k)).1,
            WFchain_arraySet (hda (mmBucket ma k)).2⟩
        · rw [if_neg hh]
          exact hda h
      · intro h
        dsimp only
        by_cases hh : h = mmBucket ma k
        · rw [if_pos hh]
          exact noneBeyond_arraySet (by rw [(hda (mmBucket ma k)).1]; exact hcell)
            (Int.natCast_nonneg _) (hnbD (mmBucket ma k))
        · rw [if_neg hh]
          exact hnbD h
      · intro h
        dsimp only
        by_cases hh : h = mmBucket ma k
        · rw [if_pos hh, if_pos hh, hh]
          rw [List.length_append, List.length_singleton, arraySet_fst_dim]
          by_cases hcase : ((ma.da (mmBucket ma k)).dim : Int) ≤
              ((aidxOf (mIndex ma.block k).2.2.2 ma.iblock
                + (ma.ia (mmBucket ma k)).length * ma.iblock.getLastD 0 : Nat) : Int)
          · rw [if_pos hcase]
            have h1 : aidxOf (mIndex ma.block k).2.2.2 ma.iblock
                + (ma.ia (mmBucket ma k)).length * ma.iblock.getLastD 0 + 1 ≤
                ((ma.ia (mmBucket ma k)).length + 1) * ma.iblock.getLastD 0 := by
              rw [Nat.succ_mul]
              omega
            omega
          · rw [if_neg hcase]
            have h2 : (ma.ia (mmBucket ma k)).length * ma.iblock.getLastD 0 ≤
                ((ma.ia (mmBucket ma k)).length + 1) * ma.iblock.getLastD 0 :=
              Nat.mul_le_mul_right _ (by omega)
            have h3 := hdimD (mmBucket ma k)
            omega
        · rw [if_neg hh, if_neg hh]
          exact hdimD h

/-- `MMultiInit` establishes the full invariant (for a dimensionality
covered by the block-size argument, whose entries fit `unsigned short`). -/
theorem MFull_MMultiInit (V : Type) (esize ndim : Nat) (blockArg : List Int) (hmask0 : Nat)
    (hnd : 1 ≤ ndim) (hndlen : ndim ≤ blockArg.length)
    (hbl : ∀ x ∈ blockArg.take ndim, 1 ≤ x ∧ x < 65536) :
    MFull (MMultiInit V esize ndim blockArg hmask0) := by
  refine ⟨⟨hnd, ?_, ?_, rfl, rfl, ?_, fun h => ⟨rfl, ?_⟩⟩,
    noneBeyond_arrayInit _, Nat.zero_le _, fun h => noneBeyond_arrayInit _,
    fun h => Nat.zero_le _⟩
  · show ((blockArg.take ndim).map toUS).length = ndim
    rw [List.length_map, List.length_take]
    omega
  · show ∀ b ∈ (blockArg.take ndim).map toUS, 1 ≤ b ∧ b < 65536
    intro b hbm
    obtain ⟨x, hx, hfx⟩ := List.mem_map.mp hbm
    obtain ⟨hx1, hx2⟩ := hbl x hx
    rw [← hfx, toUS_small (by omega) hx2]
    omega
  · intro l hl
    exact absurd hl (List.not_mem_nil _)
  · intro l hl
    exact absurd hl (List.not_mem_nil _)

theorem MMultiGet_init_none {V : Type} (esize ndim : Nat) (blockArg : List Int)
    (hmask0 : Nat) (q : List Int) :
    MMultiGet (MMultiInit V esize ndim blockArg hmask0) q = none := by
  cases hisf : (mIndex (MMultiInit V esize ndim blockArg hmask0).block q).1 with
  | true =>
    rw [MMultiGet_isf_eq _ q hisf]
    apply arrayGet_none_of_dim_le
    show ((0 : Nat) : Int) ≤ _
    exact_mod_cast Int.natCast_nonneg _
  | false =>
    rw [MMultiGet_hashed_eq _ q hisf]
    rfl

/-- Last-write-wins for a sequence of `MMultiSet` calls with no init hook:
the generalized induction. -/
theorem mmApply_get {V : Type} (ops : List (List Int × V)) :
    ∀ ma : MM V, MFull ma →
    (∀ op ∈ ops, wfMKey ma.block ma.ndim op.1) →
    ∀ q : List Int, wfMKey ma.block ma.ndim q →
    MMultiGet (mmApply none ma ops) q =
      (match lastVal ops q with
       | some v => some v
       | none => MMultiGet ma q) := by
  induction ops with
  | nil => intro ma _ _ q _; rfl
  | cons op rest ih =>
    intro ma hfull hops q hq
    have hstep : mmApply none ma (op :: rest) =
        mmApply none (MMultiSet ⟨-1, 0, 0⟩ ma op.1 (some op.2) none).2.1 rest := rfl
    rw [hstep]
    have hfull' := MFull_MMultiSet ⟨-1, 0, 0⟩ ma op.1 (some op.2) hfull
      (hops op (List.mem_cons_self _ _))
    have hblock := MMultiSet_block ⟨-1, 0, 0⟩ ma op.1 (some op.2) none
    have hndim := MMultiSet_ndim ⟨-1, 0, 0⟩ ma op.1 (some op.2) none
    rw [ih _ hfull'
      (fun op2 hop2 => by rw [hblock, hndim]; exact hops op2 (List.mem_cons_of_mem _ hop2))
      q (by rw [hblock, hndim]; exact hq)]
    have hl : lastVal (op :: rest) q =
        (match lastVal rest q with
         | some v => some v
         | none => if op.1 = q then some op.2 else none) := by
      show rest.foldl _ (if op.1 = q then some op.2 else none) = _
      rw [lastVal_from]
    rw [hl]
    cases hlv : lastVal rest q with
    | some v => rfl
    | none =>
      by_cases hqk : op.1 = q
      · rw [if_pos hqk]
        show MMultiGet (MMultiSet ⟨-1, 0, 0⟩ ma op.1 (some op.2) none).2.1 q = some op.2
        rw [← hqk]
        exact MMultiGet_MMultiSet_self ⟨-1, 0, 0⟩ ma op.1 op.2 none hfull.1
          (hops op (List.mem_cons_self _ _))
      · rw [if_neg hqk]
        show MMultiGet (MMultiSet ⟨-1, 0, 0⟩ ma op.1 (some op.2) none).2.1 q =
          MMultiGet ma q
        exact MMultiGet_MMultiSet_frame ⟨-1, 0, 0⟩ ma op.1 q (some op.2) hfull
          (hops op (List.mem_cons_self _ _)) hq (fun hc => hqk hc.symm)

/-- C6: Hybrid fast path: `isf` is set exactly when every coordinate
`k[i]` is strictly below its block size `block[i]`; for such a key the
dense offset is exactly the little-endian mixed-radix value
`residual[0] + sum_{i>=1} residual[i]*iblock[i-1]` of the coordinates,
`MMultiGet` reads the dense fallback array at that offset, and
`MMultiSet` leaves the hash-bucket state (`ia`, `da`) untouched. -/
theorem mmulti_fast_path {V : Type} (g : Glob) (ma : MM V) (k : List Int) (d ini : Option V)
    (hinv : MInv ma) (hwf : wfMKey ma.block ma.ndim k) :
    ((mIndex ma.block k).1 = true ↔ ∀ p ∈ k.zip ma.block, p.1 < (p.2 : Int)) ∧
    ((mIndex ma.block k).1 = true →
      aidxOf (mIndex ma.block k).2.2.2 ma.iblock =
        radixVal ma.block (k.map Int.toNat) ∧
      MMultiGet ma k =
        arrayGet ma.arr ((aidxOf (mIndex ma.block k).2.2.2 ma.iblock : Nat) : Int) ∧
      (MMultiSet g ma k d ini).2.1.ia = ma.ia ∧
      (MMultiSet g ma k d ini).2.1.da = ma.da) := by
  have hbne := MInv_block_ne_nil hinv
  obtain ⟨hnd, hlen, hb, hib, _⟩ := hinv
  constructor
  · exact mIndexGo_isf (k.zip ma.block)
  · intro hisf
    have hinr : ∀ p ∈ k.zip ma.block, 0 ≤ p.1 ∧ p.1 < (p.2 : Int) :=
      fun p hp => ⟨(hwf.2 p hp).1, (mIndexGo_isf _).mp hisf p hp⟩
    refine ⟨?_, MMultiGet_isf_eq ma k hisf, ?_, ?_⟩
    · rw [hib, mIndex_ridx_eq ma.block ma.ndim k hb hwf,
        map_tmod_inrange ma.block k hinr (hwf.1.trans hlen.symm),
        aidxOf_eq_radix]
      rw [List.length_map]
      have h1 := hwf.1
      omega
    · rw [MMultiSet_isf_eq g ma k d ini hisf]
    · rw [MMultiSet_isf_eq g ma k d ini hisf]

/-- Witness for C6 on a freshly initialized hybrid array with
`ndim = 2`, `block = [4,4]` and key `[1,2]` (offset `1 + 2*4 = 9`). -/
theorem mmulti_fast_path_witness :
    MMultiGet (MMultiInit Int 8 2 [4, 4] 0) [1, 2] =
      arrayGet (MMultiInit Int 8 2 [4, 4] 0).arr
        ((aidxOf (mIndex (MMultiInit Int 8 2 [4, 4] 0).block [1, 2]).2.2.2
          (MMultiInit Int 8 2 [4, 4] 0).iblock : Nat) : Int) ∧
    (MMultiSet ⟨-1, 0, 0⟩ (MMultiInit Int 8 2 [4, 4] 0) [1, 2] (some 7) none).2.1.ia
      = (MMultiInit Int 8 2 [4, 4] 0).ia ∧
    (MMultiSet ⟨-1, 0, 0⟩ (MMultiInit Int 8 2 [4, 4] 0) [1, 2] (some 7) none).2.1.da
      = (MMultiInit Int 8 2 [4, 4] 0).da ∧
    aidxOf (mIndex (MMultiInit Int 8 2 [4, 4] 0).block [1, 2]).2.2.2
      (MMultiInit Int 8 2 [4, 4] 0).iblock = 9 := by
  have h := mmulti_fast_path ⟨-1, 0, 0⟩ (MMultiInit Int 8 2 [4, 4] 0) [1, 2]
    (some 7) none
    (MFull_MMultiInit Int 8 2 [4, 4] 0 (by decide) (by decide) (by decide)).1
    ⟨rfl, by decide⟩
  obtain ⟨hiff, himp⟩ := h
  obtain ⟨har, hget, hia, hda⟩ := himp (by decide)
  exact ⟨hget, hia, hda, by decide⟩

set_option maxRecDepth 1000000 in
/-- C7: on a hybrid array with `ndim = 2`, `block = [4,4]`, after
`Set([1,2], 7)` and `Set([5,2], 9)` (the second key exceeds the first
dimension's block size, hence `isf = 0` and the hashed super-cell path),
`Get([1,2])` returns `7` via the fast path, `Get([5,2])` returns `9` via
the hashed path, and `Get([1,3])` returns absent. -/
theorem mmulti_concrete_scenario :
    (mIndex (MMultiInit Int 8 2 [4, 4] 0).block [1, 2]).1 = true ∧
    (mIndex (MMultiInit Int 8 2 [4, 4] 0).block [5, 2]).1 = false ∧
    MMultiGet (MMultiSet ⟨-1, 0, 0⟩ (MMultiSet ⟨-1, 0, 0⟩ (MMultiInit Int 8 2 [4, 4] 0)
        [1, 2] (some 7) none).2.1 [5, 2] (some 9) none).2.1 [1, 2] = some 7 ∧
    MMultiGet (MMultiSet ⟨-1, 0, 0⟩ (MMultiSet ⟨-1, 0, 0⟩ (MMultiInit Int 8 2 [4, 4] 0)
        [1, 2] (some 7) none).2.1 [5, 2] (some 9) none).2.1 [5, 2] = some 9 ∧
    MMultiGet (MMultiSet ⟨-1, 0, 0⟩ (MMultiSet ⟨-1, 0, 0⟩ (MMultiInit Int 8 2 [4, 4] 0)
        [1, 2] (some 7) none).2.1 [5, 2] (some 9) none).2.1 [1, 3] = none := by
  decide

set_option maxRecDepth 1000000 in
/-- C5: the bucket hash is a pure function of the first `len` key words,
the seed, and the mask (determinism and no truncation beyond `len`); with
the mask `HashSize(n)-1` — which `NMultiInit` installs together with
`hsize = HashSize(n)` — the bucket always lies inside the table; and it
depends on every key element for every dimensionality up to 8.
`MMultiInit`, however, never writes `hmask` (array.c:987-1023; contrast
`NMultiInit`, array.c:689), so the mask is whatever the allocation held:
with the stale content `HashSize(2)` there, the bucket selected by
`MMultiGet`/`MMultiSet` for the key `[1,5]` equals `hsize` itself — one
past the last valid bucket of the `ia`/`da` tables. -/
theorem hash_bucket_range_and_uninitialized_hmask :
    (∀ (id : List Int) (len iv m : Nat), hash2 id len iv m = hash2 (id.take len) len iv m) ∧
    (∀ (id : List Int) (len iv n : Nat), hash2 id len iv (hashMask n) < hashSize n) ∧
    (∀ n : Nat, n < 9 → 1 ≤ n → ∀ i : Nat, i < n →
      hash2 (List.replicate n 0) n 0 (hashMask n) ≠
        hash2 ((List.replicate n (0 : Int)).set i 1) n 0 (hashMask n)) ∧
    (∀ (V : Type) (cs : CSizes) (esize ndim : Nat) (g : Glob),
      (NMultiInit V cs esize ndim g).1.hmask = hashMask ndim ∧
      (NMultiInit V cs esize ndim g).1.hsize = hashSize ndim) ∧
    (∀ (V : Type) (esize ndim : Nat) (blockArg : List Int) (hmask0 : Nat),
      (MMultiInit V esize ndim blockArg hmask0).hmask = hmask0) ∧
    mmBucket (MMultiInit Int 8 2 [4, 4] (hashSize 2)) [1, 5] =
      (MMultiInit Int 8 2 [4, 4] (hashSize 2)).hsize ∧
    ¬ mmBucket (MMultiInit Int 8 2 [4, 4] (hashSize 2)) [1, 5] <
      (MMultiInit Int 8 2 [4, 4] (hashSize 2)).hsize := by
  refine ⟨?_, ?_, by decide, fun V cs esize ndim g => ⟨rfl, rfl⟩,
    fun V esize ndim blockArg hmask0 => rfl, by decide, by decide⟩
  · intro id len iv m
    simp only [hash2, List.take_take, min_self]
  · intro id len iv n
    rw [hashMask]
    have h1 : hash2 id len iv (hashSize n - 1) ≤ hashSize n - 1 := Nat.and_le_right
    have h2 : 0 < hashSize n := by
      rw [hashSize, Nat.shiftLeft_eq, Nat.one_mul]
      exact Nat.pos_pow_of_pos _ (by omega)
    omega

/-- Witness for C5: concrete instances of the quantified conjuncts. -/
theorem hash_bucket_range_and_uninitialized_hmask_witness :
    hash2 [3, 7, 9] 2 0 (hashMask 2) < hashSize 2 ∧
    hash2 (List.replicate 2 0) 2 0 (hashMask 2) ≠
      hash2 ((List.replicate 2 (0 : Int)).set 1 1) 2 0 (hashMask 2) ∧
    (NMultiInit Int ⟨1, 1, 1, 1⟩ 8 2 ⟨-1, 0, 0⟩).1.hmask = hashMask 2 := by
  have h := hash_bucket_range_and_uninitialized_hmask
  exact ⟨h.2.1 [3, 7, 9] 2 0 2,
    h.2.2.1 2 (by decide) (by decide) 1 (by decide),
    (h.2.2.2.1 Int ⟨1, 1, 1, 1⟩ 8 2 ⟨-1, 0, 0⟩).1⟩

set_option maxRecDepth 1000000 in
/-- C10: neither `SMultiGet` nor `SMultiSet` ever writes through the
`LOCK**` out-parameter — their bodies never mention it, so the caller's
variable comes back exactly as passed in, for every state, key, and value.
By contrast, `NMultiSet` always writes the entry's lock through it, and
`NMultiGet` writes it on a hit. -/
theorem smulti_lock_out_param_untouched :
    (∀ (V : Type) (ma : SMState V) (k : List Int) (lv : Option Nat),
      (SMultiGet ma k lv).2 = lv) ∧
    (∀ (V : Type) (ma : SMState V) (k : List Int) (d : Option V)
      (iniV : Option (SVal V)) (lv : Option Nat),
      (SMultiSet ma k d iniV lv).2 = lv) ∧
    NMultiSetLockOut ⟨1, 1, 1, 1⟩ (NMultiInit Int ⟨1, 1, 1, 1⟩ 8 2 ⟨-1, 0, 0⟩).1
      ⟨-1, 0, 0⟩ [0, 0] (some 5) none none ≠ none ∧
    NMultiGetLockOut (NMultiSet ⟨1, 1, 1, 1⟩ (NMultiInit Int ⟨1, 1, 1, 1⟩ 8 2 ⟨-1, 0, 0⟩).1
      ⟨-1, 0, 0⟩ [0, 0] (some 5) none).1 [0, 0] none ≠ none := by
  refine ⟨fun V ma k lv => rfl, fun V ma k d iniV lv => rfl, ?_, by decide⟩
  intro hc
  exact Option.noConfusion hc

theorem nmSetBody_delta (cs : CSizes) (ma : NM V) (g : Glob) (k : List Int)
    (d ini : Option V) :
    (nmSetBody cs ma g k d ini).2.1.totalsize - g.totalsize =
      (nmSetBody cs ma g k d ini).1.totalsize - ma.totalsize := by
  unfold nmSetBody
  dsimp only
  cases findEntry (ma.buckets (hash2 k ma.ndim 0 ma.hmask)) k with
  | some e =>
    dsimp only
    rw [sub_self, sub_self]
  | none =>
    dsimp only
    ring

set_option maxRecDepth 1000000 in
/-- Counterexample for C2: `MMultiSet` performs no eviction check and
never mutates the global ledger.  Start from a hybrid array holding key
`[1,2]`, with its per-cache budget exceeded (`maxsize = 1 ≤ totalsize =
200`) and the global budget exceeded as well (`10 ≤ 1000`, and the
cache's share `200` exceeds a tenth of the global total `1000`); the next
`Set` returns the global ledger bit-for-bit unchanged, leaves the cache's
byte counters alone, and does not clear the old entry. -/
theorem mmulti_set_ignores_budgets :
    (MMultiSet ⟨10, 1000, 0⟩
      { (MMultiSet ⟨10, 1000, 0⟩
          { MMultiInit Int 8 2 [4, 4] 0 with maxsize := 1 }
          [1, 2] (some 7) none).2.1 with totalsize := 200 }
      [5, 2] (some 9) none).1 = ⟨10, 1000, 0⟩ ∧
    (MMultiSet ⟨10, 1000, 0⟩
      { (MMultiSet ⟨10, 1000, 0⟩
          { MMultiInit Int 8 2 [4, 4] 0 with maxsize := 1 }
          [1, 2] (some 7) none).2.1 with totalsize := 200 }
      [5, 2] (some 9) none).2.1.totalsize = 200 ∧
    (MMultiSet ⟨10, 1000, 0⟩
      { (MMultiSet ⟨10, 1000, 0⟩
          { MMultiInit Int 8 2 [4, 4] 0 with maxsize := 1 }
          [1, 2] (some 7) none).2.1 with totalsize := 200 }
      [5, 2] (some 9) none).2.1.maxsize = 1 ∧
    MMultiGet (MMultiSet ⟨10, 1000, 0⟩
      { (MMultiSet ⟨10, 1000, 0⟩
          { MMultiInit Int 8 2 [4, 4] 0 with maxsize := 1 }
          [1, 2] (some 7) none).2.1 with totalsize := 200 }
      [5, 2] (some 9) none).2.1 [1, 2] = some 7 ∧
    ((1 : ℚ) ≤ 200 ∧ (10 : ℚ) ≤ 1000 ∧ (1000 : ℚ) / 10 < 200) := by
  refine ⟨MMultiSet_fst _ _ _ _ _, by decide, by decide, by decide, by norm_num⟩

/-- C2 (amended): on the hash-sparse `NMulti`, the two — mutually
exclusive — trigger conditions are checked at the start of every `Set`,
local budget first, else the global one, flushing through
`NMultiFreeData` before the insertion body runs; and when neither fires,
the per-cache and global byte totals move by exactly the same amount.
The hybrid `MMultiSet`, by contrast, performs no trigger check and never
mutates the global memory ledger: it returns it unchanged on every
path. -/
theorem multi_eviction_triggers_amended :
    (∀ (V : Type) (cs : CSizes) (ma : NM V) (g : Glob) (k : List Int) (d ini : Option V),
      (0 < ma.maxsize ∧ ma.maxsize ≤ ma.totalsize) →
      NMultiSet cs ma g k d ini =
        nmSetBody cs (NMultiFreeData { ma with cleanMode := 0 } g).1
          (NMultiFreeData { ma with cleanMode := 0 } g).2 k d ini) ∧
    (∀ (V : Type) (cs : CSizes) (ma : NM V) (g : Glob) (k : List Int) (d ini : Option V),
      ¬ (0 < ma.maxsize ∧ ma.maxsize ≤ ma.totalsize) →
      (0 < g.maxsize ∧ g.maxsize ≤ g.totalsize ∧ g.totalsize / 10 < ma.totalsize) →
      NMultiSet cs ma g k d ini =
        nmSetBody cs (NMultiFreeData { ma with cleanMode := 1 } g).1
          (NMultiFreeData { ma with cleanMode := 1 } g).2 k d ini) ∧
    (∀ (V : Type) (cs : CSizes) (ma : NM V) (g : Glob) (k : List Int) (d ini : Option V),
      ¬ (0 < ma.maxsize ∧ ma.maxsize ≤ ma.totalsize) →
      ¬ (0 < g.maxsize ∧ g.maxsize ≤ g.totalsize ∧ g.totalsize / 10 < ma.totalsize) →
      NMultiSet cs ma g k d ini = nmSetBody cs ma g k d ini) ∧
    (∀ (V : Type) (cs : CSizes) (ma : NM V) (g : Glob) (k : List Int) (d ini : Option V),
      ¬ (0 < ma.maxsize ∧ ma.maxsize ≤ ma.totalsize) →
      ¬ (0 < g.maxsize ∧ g.maxsize ≤ g.totalsize ∧ g.totalsize / 10 < ma.totalsize) →
      (NMultiSet cs ma g k d ini).2.1.totalsize - g.totalsize =
        (NMultiSet cs ma g k d ini).1.totalsize - ma.totalsize) ∧
    (∀ (V : Type) (g : Glob) (ma : MM V) (k : List Int) (d ini : Option V),
      (MMultiSet g ma k d ini).1 = g) := by
  refine ⟨?_, ?_, ?_, ?_, fun V g ma k d ini => MMultiSet_fst g ma k d ini⟩
  · intro V cs ma g k d ini h1
    simp only [NMultiSet, if_pos h1]
  · intro V cs ma g k d ini h1 h2
    simp only [NMultiSet, if_neg h1, if_pos h2]
  · intro V cs ma g k d ini h1 h2
    simp only [NMultiSet, if_neg h1, if_neg h2]
  · intro V cs ma g k d ini h1 h2
    simp only [NMultiSet, if_neg h1, if_neg h2]
    exact nmSetBody_delta cs ma g k d ini

/-- Witness for C2 (amended): the local trigger fires on a cache with
budget 1 and 1 byte accounted; the hybrid `Set` hands the ledger back
unchanged. -/
theorem multi_eviction_triggers_amended_witness :
    NMultiSet ⟨1, 1, 1, 1⟩
        (⟨2, 8, 8, 4, 3, 1, 1, 0, 1, -1,
          fun _ => [⟨[0, 0], 0, some (5 : Int), 1⟩], 2⟩ : NM Int)
        ⟨-1, 100, 0⟩ [1, 2] (some 7) none =
      nmSetBody ⟨1, 1, 1, 1⟩
        (NMultiFreeData { (⟨2, 8, 8, 4, 3, 1, 1, 0, 1, -1,
            fun _ => [⟨[0, 0], 0, some (5 : Int), 1⟩], 2⟩ : NM Int) with cleanMode := 0 }
          ⟨-1, 100, 0⟩).1
        (NMultiFreeData { (⟨2, 8, 8, 4, 3, 1, 1, 0, 1, -1,
            fun _ => [⟨[0, 0], 0, some (5 : Int), 1⟩], 2⟩ : NM Int) with cleanMode := 0 }
          ⟨-1, 100, 0⟩).2 [1, 2] (some 7) none ∧
    (MMultiSet ⟨1, 2, 3⟩ (MMultiInit Int 8 2 [4, 4] 0) [1, 2] (some 5) none).1
      = ⟨1, 2, 3⟩ := by
  have h := multi_eviction_triggers_amended
  exact ⟨h.1 Int ⟨1, 1, 1, 1⟩
      (⟨2, 8, 8, 4, 3, 1, 1, 0, 1, -1, fun _ => [⟨[0, 0], 0, some (5 : Int), 1⟩], 2⟩ : NM Int)
      ⟨-1, 100, 0⟩ [1, 2] (some 7) none ⟨zero_lt_one, le_refl 1⟩,
    h.2.2.2.2 Int ⟨1, 2, 3⟩ (MMultiInit Int 8 2 [4, 4] 0) [1, 2] (some 5) none⟩

theorem blkGetP_cons {block : Nat} (b : Option (List (Option α))) (rest) (i : Nat) :
    blkGetP block (b :: rest) i =
      if i < block then
        (match b with
         | none => none
         | some l => some ((l.get? i).join))
      else blkGetP block rest (i - block) := rfl

/-- The two observations of `ArrayGet` agree: the known content is the
pointer-presence result flattened. -/
theorem blkGet_eq_blkGetP {block : Nat} (chain : List (Option (List (Option α)))) :
    ∀ i : Nat, blkGet block chain i = (blkGetP block chain i).join := by
  induction chain with
  | nil => intro i; rfl
  | cons b rest ih =>
    intro i
    rw [blkGet_cons, blkGetP_cons]
    by_cases h : i < block
    · rw [if_pos h, if_pos h]
      cases b with
      | none => rfl
      | some l => rfl
    · rw [if_neg h, if_neg h]
      exact ih (i - block)

theorem arrayGet_eq_arrayGetP (a : BArr α) (i : Int) :
    arrayGet a i = (arrayGetP a i).join := by
  rw [arrayGet, arrayGetP]
  by_cases h0 : i < 0
  · rw [if_pos h0, if_pos h0]; rfl
  · rw [if_neg h0, if_neg h0]
    by_cases h1 : (a.dim : Int) ≤ i
    · rw [if_pos h1, if_pos h1]; rfl
    · rw [if_neg h1, if_neg h1]
      exact blkGet_eq_blkGetP a.chain i.toNat

theorem MMultiGet_eq_MMultiGetP {V : Type} (ma : MM V) (k : List Int) :
    MMultiGet ma k = (MMultiGetP ma k).join := by
  unfold MMultiGet MMultiGetP
  dsimp only
  by_cases hisf : (mIndex ma.block k).1 = true
  · rw [if_pos hisf, if_pos hisf]
    exact arrayGet_eq_arrayGetP _ _
  · rw [if_neg hisf, if_neg hisf]
    cases hfind : (ma.ia (hash2 (mIndex ma.block k).2.1 ma.ndim 0 ma.hmask)).findIdx?
        (fun s => s == (mIndex ma.block k).2.2.1) with
    | some j =>
      dsimp only
      exact arrayGet_eq_arrayGetP _ _
    | none => rfl

/-- Counterexample for C1: a never-set in-range key of the hybrid array
does not read absent after a single `Set([1,2], 7)` on `block = [4,4]`.
With an `InitData` hook (fill every slot with `0`), the never-set key
`[0,0]` reads the hook's value `0`.  Without a hook it still comes back
present: the `Set` materialized the covering block and raised `dim` to
`10`, and `ArrayGet` returns a non-NULL pointer for every index below
`dim` of a materialized block (array.c:182-183) — here a pointer into
storage that was never written (`some none` under `MMultiGetP`). -/
theorem mmulti_get_never_set_not_absent :
    MMultiGet (MMultiSet ⟨-1, 0, 0⟩ (MMultiInit Int 8 2 [4, 4] 0)
        [1, 2] (some 7) (some 0)).2.1 [0, 0] = some 0 ∧
    MMultiGetP (MMultiSet ⟨-1, 0, 0⟩ (MMultiInit Int 8 2 [4, 4] 0)
        [1, 2] (some 7) none).2.1 [0, 0] = some none ∧
    (MMultiSet ⟨-1, 0, 0⟩ (MMultiInit Int 8 2 [4, 4] 0)
        [1, 2] (some 7) none).2.1.arr.dim = 10 ∧
    lastVal [([1, 2], (7 : Int))] [0, 0] = none := by
  decide

/-- C1 (amended): with eviction disabled (budgets off) and no
interleaving, `Get(k)` returns the most recently set value for the exact
key `k` on both sparse flavours.  A never-set key reads absent (`NULL`)
on the hash-sparse `NMulti` unconditionally, including out-of-range
keys.  On the hybrid `MMulti` absence is not guaranteed: a never-set
well-formed key yields either `NULL` (the lookup misses structurally:
its super-cell key was never recorded, its index lies beyond the dense
array's extent, or the containing block was never materialized) or a
live pointer into storage the cache never wrote — `malloc` garbage
without an `InitData` hook, the hook's fill with one (see the
counterexample) — and in particular never a previously stored value. -/
theorem multi_last_write_wins_amended :
    (∀ (V : Type) (cs : CSizes) (esize ndim : Nat) (g0 : Glob) (ini : Option V)
      (ops : List (List Int × V)) (q : List Int),
      g0.maxsize ≤ 0 →
      (NMultiGet (nmApply cs ini (NMultiInit V cs esize ndim g0) ops).1 q).map
          (fun e => e.val) =
        (match lastVal ops q with
         | some v => some (some v)
         | none => none)) ∧
    (∀ (V : Type) (esize ndim : Nat) (blockArg : List Int) (ops : List (List Int × V))
      (q : List Int),
      1 ≤ ndim → ndim ≤ blockArg.length →
      (∀ x ∈ blockArg.take ndim, 1 ≤ x ∧ x < 65536) →
      (∀ op ∈ ops, wfMKey (MMultiInit V esize ndim blockArg 0).block ndim op.1) →
      wfMKey (MMultiInit V esize ndim blockArg 0).block ndim q →
      (match lastVal ops q with
       | some v =>
         MMultiGet (mmApply none (MMultiInit V esize ndim blockArg 0) ops) q = some v
       | none =>
         MMultiGetP (mmApply none (MMultiInit V esize ndim blockArg 0) ops) q
             = none ∨
         MMultiGetP (mmApply none (MMultiInit V esize ndim blockArg 0) ops) q
             = some none)) := by
  constructor
  · intro V cs esize ndim g0 ini ops q hg
    have h := nmApply_get cs ini ops (NMultiInit V cs esize ndim g0).1
      (NMultiInit V cs esize ndim g0).2 (show (-1 : ℚ) ≤ 0 by norm_num) hg q
    rw [show ((NMultiInit V cs esize ndim g0).1, (NMultiInit V cs esize ndim g0).2)
        = NMultiInit V cs esize ndim g0 from rfl] at h
    rw [h]
    cases lastVal ops q with
    | some v => rfl
    | none => rfl
  · intro V esize ndim blockArg ops q h1 h2 h3 hops hq
    have hg := mmApply_get ops (MMultiInit V esize ndim blockArg 0)
      (MFull_MMultiInit V esize ndim blockArg 0 h1 h2 h3) hops q hq
    cases hlv : lastVal ops q with
    | some v =>
      rw [hlv] at hg
      exact hg
    | none =>
      rw [hlv] at hg
      have hnone : MMultiGet (mmApply none (MMultiInit V esize ndim blockArg 0) ops) q
          = none := by
        rw [hg]
        exact MMultiGet_init_none esize ndim blockArg 0 q
      rw [MMultiGet_eq_MMultiGetP] at hnone
      cases hP : MMultiGetP (mmApply none (MMultiInit V esize ndim blockArg 0) ops) q with
      | none => exact Or.inl rfl
      | some s =>
        cases s with
        | none => exact Or.inr rfl
        | some v =>
          rw [hP] at hnone
          exact absurd hnone (by simp)

set_option maxRecDepth 1000000 in
/-- Witness for C1 (amended): a two-element `NMulti` history overwriting
one key; a two-element `MMulti` history (one fast-path key, one hashed
key) whose most recent writes read back; and the never-set key `[1,3]`,
whose lookup lies beyond the dense array's extent, yielding the
NULL-or-never-written-pointer disjunction. -/
theorem multi_last_write_wins_amended_witness :
    (NMultiGet (nmApply ⟨1, 1, 1, 1⟩ (none : Option Int)
        (NMultiInit Int ⟨1, 1, 1, 1⟩ 8 2 ⟨-1, 0, 0⟩)
        [([3, 4], 11), ([3, 4], 22)]).1 [3, 4]).map (fun e => e.val)
      = some (some 22) ∧
    MMultiGet (mmApply none (MMultiInit Int 8 2 [4, 4] 0)
      [([1, 2], (7 : Int)), ([5, 2], 9)]) [1, 2] = some 7 ∧
    (MMultiGetP (mmApply none (MMultiInit Int 8 2 [4, 4] 0)
        [([1, 2], (7 : Int)), ([5, 2], 9)]) [1, 3] = none ∨
      MMultiGetP (mmApply none (MMultiInit Int 8 2 [4, 4] 0)
        [([1, 2], (7 : Int)), ([5, 2], 9)]) [1, 3] = some none) := by
  have h := multi_last_write_wins_amended
  have hopswf : ∀ op ∈ [([1, 2], (7 : Int)), ([5, 2], 9)],
      wfMKey (MMultiInit Int 8 2 [4, 4] 0).block 2 op.1 := by
    intro op hop
    rcases List.mem_cons.mp hop with hh | hh
    · rw [hh]; exact ⟨rfl, by decide⟩
    · rcases List.mem_cons.mp hh with hh2 | hh2
      · rw [hh2]; exact ⟨rfl, by decide⟩
      · exact absurd hh2 (List.not_mem_nil _)
  refine ⟨?_, ?_, ?_⟩
  · rw [h.1 Int ⟨1, 1, 1, 1⟩ 8 2 ⟨-1, 0, 0⟩ none [([3, 4], 11), ([3, 4], 22)] [3, 4]
      (by norm_num)]
    rfl
  · exact h.2 Int 8 2 [4, 4] [([1, 2], (7 : Int)), ([5, 2], 9)] [1, 2]
      (by decide) (by decide) (by decide) hopswf ⟨rfl, by decide⟩
  · exact h.2 Int 8 2 [4, 4] [([1, 2], (7 : Int)), ([5, 2], 9)] [1, 3]
      (by decide) (by decide) (by decide) hopswf ⟨rfl, by decide⟩
